import Mathlib

/-!
# Verification of the suricata-update rule-processing core

Shallow embedding of the rule parser (`suricata/update/rule.py`), the flowbit
dependency resolver (`FlowbitResolver`), and the matcher/filter classes
(`suricata/update/matchers.py`), together with proofs about the behaviour the
specification ascribes to them.

Python strings are modelled as `List Char`; Python dictionary values that can
occur in a rule record are modelled by `PyVal`; Python exceptions are modelled
by the error side of `Except PyErr`.  Loops whose termination is not
structural carry an explicit fuel argument; each such call site passes a fuel
bound that is proved (or argued in its doc comment) sufficient, and exhaustion
is a distinguished error `PyErr.fuelOut` that is proved unreachable for the
top-level entry points.

Deliberate approximations, noted where they occur: `int()` is modelled for
optionally-signed ASCII digit strings (no underscores or unicode digits);
regular-expression character classes are modelled over ASCII; `fnmatch` and
the string hash are abstracted as function parameters; `str()` rendering of
non-string rule text is approximate.
-/

/-- Python exceptions that the modelled code can raise.  `fuelOut` is the
model-only marker for fuel exhaustion (proved unreachable at the entry
points). -/
inductive PyErr where
  | noEndOfOption
  | badSid
  | indexError
  | typeError
  | valueError
  | attributeError
  | flowbitParse
  | fuelOut
deriving DecidableEq

/-- Python values stored in a rule record's dictionary.  The only lists the
code ever stores in a rule are lists of strings or of `None` (flowbits,
metadata, references, features), modelled by `listOS`. -/
inductive PyVal where
  | none
  | bool (b : Bool)
  | int (n : Int)
  | str (s : List Char)
  | listOS (l : List (Option (List Char)))
deriving DecidableEq

/-- Python truthiness of a `PyVal`. -/
def pyTruthy : PyVal → Bool
  | .none => false
  | .bool b => b
  | .int n => n != 0
  | .str s => !s.isEmpty
  | .listOS l => !l.isEmpty

/-- The ASCII characters Python's `str.strip()` (and the regex class used for
leading comment markers) treats as whitespace. -/
def isPySpace (c : Char) : Bool :=
  c == ' ' || c == '\t' || c == '\n' || c == '\r' || c == '\x0b' || c == '\x0c'

/-- Python `s.strip()`: remove leading and trailing whitespace. -/
def pyStrip (s : List Char) : List Char :=
  ((s.dropWhile isPySpace).reverse.dropWhile isPySpace).reverse

/-- Python `s[offset:].find(c)`: index of the first occurrence of `c` at or
after `offset`, relative to `offset`; `-1` when absent. -/
def pyFindRel (s : List Char) (offset : Nat) (c : Char) : Int :=
  match (s.drop offset).findIdx? (· == c) with
  | Option.none => -1
  | some k => (k : Int)

/-- Python string indexing `s[k]` with negative-index wraparound; raises
`IndexError` when out of range. -/
def pythonGet (s : List Char) (k : Int) : Except PyErr Char :=
  let j : Int := if k < 0 then (s.length : Int) + k else k
  if j < 0 then .error .indexError
  else
    match s.get? j.toNat with
    | some c => .ok c
    | Option.none => .error .indexError

/-- Python `s.split(c)` (full split, keeping empty fields). -/
def pySplitChar (c : Char) : List Char → List (List Char)
  | [] => [[]]
  | x :: xs =>
    let r := pySplitChar c xs
    if x == c then [] :: r
    else
      match r with
      | [] => [[x]]
      | h :: t => (x :: h) :: t

/-- Python `s.split(c, 1)` (split at the first occurrence only). -/
def pySplitFirst (c : Char) (s : List Char) : List (List Char) :=
  match s.findIdx? (· == c) with
  | Option.none => [s]
  | some i => [s.take i, s.drop (i + 1)]

/-- Decimal value of a digit string. -/
def digitsToNat (s : List Char) : Nat :=
  s.foldl (fun a c => a * 10 + (c.toNat - '0'.toNat)) 0

/-- Python `int(val)` as used in `parse`: `int(None)` is a `TypeError`; a
string is stripped, an optional sign read, and the remainder must be a
nonempty ASCII digit run (underscores and unicode digits are not modelled),
else `ValueError`. -/
def pyInt : Option (List Char) → Except PyErr Int
  | Option.none => .error .typeError
  | some s =>
    let t := pyStrip s
    let (sign, digits) :=
      match t with
      | '-' :: rest => ((-1 : Int), rest)
      | '+' :: rest => ((1 : Int), rest)
      | _ => ((1 : Int), t)
    if !digits.isEmpty && digits.all Char.isDigit then
      .ok (sign * (digitsToNat digits : Int))
    else .error .valueError

/-- `Option (List Char)` as the Python value it denotes (`None` or a str). -/
def pyvalOfOpt : Option (List Char) → PyVal
  | Option.none => PyVal.none
  | some s => .str s

/-- Python substring containment `pat in s`. -/
def isSubstr (pat : List Char) : List Char → Bool
  | [] => pat.isEmpty
  | c :: rest => pat.isPrefixOf (c :: rest) || isSubstr pat rest

/-- The rule record (`class Rule(dict)` in `rule.py`).  Each field is one of
the dictionary keys created by `Rule.__init__` with its default value;
`header` is the key that only `parse` adds (hence `Option`, absent = `none`);
`extras` holds every other key that the generic option branch
`rule[name] = val` of `parse` inserts, as an insertion-ordered association
list without duplicate keys (matching dict update semantics). -/
structure Rule where
  enabled : PyVal := PyVal.none
  action : PyVal := PyVal.none
  proto : PyVal := PyVal.none
  source_addr : PyVal := PyVal.none
  source_port : PyVal := PyVal.none
  direction : PyVal := PyVal.none
  dest_addr : PyVal := PyVal.none
  dest_port : PyVal := PyVal.none
  group : PyVal := PyVal.none
  gid : PyVal := PyVal.int 1
  sid : PyVal := PyVal.none
  rev : PyVal := PyVal.int 0
  msg : PyVal := PyVal.none
  flowbits : PyVal := PyVal.listOS []
  metadata : PyVal := PyVal.listOS []
  references : PyVal := PyVal.listOS []
  classtype : PyVal := PyVal.none
  priority : PyVal := PyVal.int 0
  noalert : PyVal := PyVal.bool false
  features : PyVal := PyVal.listOS []
  raw : PyVal := PyVal.none
  header : Option PyVal := Option.none
  extras : List (List Char × PyVal) := []
deriving DecidableEq

/-- Dict update on the extra keys: overwrite in place or append. -/
def setAssoc : List (List Char × PyVal) → List Char → PyVal → List (List Char × PyVal)
  | [], k, v => [(k, v)]
  | (k', v') :: rest, k, v =>
    if k' = k then (k, v) :: rest else (k', v') :: setAssoc rest k v

/-- The dictionary keys a rule record always carries (those of
`Rule.__init__`) plus `header`; used to route `rule[name] = val`. -/
def ruleKnownKeys : List (List Char) :=
  ["enabled".data, "action".data, "proto".data, "source_addr".data,
   "source_port".data, "direction".data, "dest_addr".data, "dest_port".data,
   "group".data, "gid".data, "sid".data, "rev".data, "msg".data,
   "flowbits".data, "metadata".data, "references".data, "classtype".data,
   "priority".data, "noalert".data, "features".data, "raw".data,
   "header".data]

/-- `rule[name] = v` for an arbitrary option name (the generic assignment in
`parse`): the dictionary key called `name` receives `v` — the fixed key of
that name when one exists (at most one name test can fire), otherwise an
`extras` entry. -/
def Rule.setOpt (r : Rule) (name : List Char) (v : PyVal) : Rule :=
  { enabled := if name = "enabled".data then v else r.enabled,
    action := if name = "action".data then v else r.action,
    proto := if name = "proto".data then v else r.proto,
    source_addr := if name = "source_addr".data then v else r.source_addr,
    source_port := if name = "source_port".data then v else r.source_port,
    direction := if name = "direction".data then v else r.direction,
    dest_addr := if name = "dest_addr".data then v else r.dest_addr,
    dest_port := if name = "dest_port".data then v else r.dest_port,
    group := if name = "group".data then v else r.group,
    gid := if name = "gid".data then v else r.gid,
    sid := if name = "sid".data then v else r.sid,
    rev := if name = "rev".data then v else r.rev,
    msg := if name = "msg".data then v else r.msg,
    flowbits := if name = "flowbits".data then v else r.flowbits,
    metadata := if name = "metadata".data then v else r.metadata,
    references := if name = "references".data then v else r.references,
    classtype := if name = "classtype".data then v else r.classtype,
    priority := if name = "priority".data then v else r.priority,
    noalert := if name = "noalert".data then v else r.noalert,
    features := if name = "features".data then v else r.features,
    raw := if name = "raw".data then v else r.raw,
    header := if name = "header".data then some v else r.header,
    extras := if ruleKnownKeys.contains name then r.extras
              else setAssoc r.extras name v }

/-- One pass of the loop body of `find_opt_end`:

    i = options[offset:].find(";")
    if options[offset + i - 1] == "\\": offset += 2
    else: return offset + i

including the Python negative-index behaviour of `options[offset + i - 1]`
(when nothing is found, `i` is `-1` and the lookup inspects `offset - 2`,
wrapping around from the end of the string for `offset < 2` and raising
`IndexError` when out of range).  The fuel only bounds iterations: the offset
grows by 2 each pass and the lookup raises once `offset - 2` reaches the
length, so `length + 2` passes can never be exhausted (`find_opt_end_fuel`).
-/
def findOptEndAux (s : List Char) : Nat → Nat → Except PyErr Int
  | _, 0 => .error .fuelOut
  | offset, fuel + 1 =>
    let i := pyFindRel s offset ';'
    match pythonGet s ((offset : Int) + i - 1) with
    | .error e => .error e
    | .ok c =>
      if c = '\\' then findOptEndAux s (offset + 2) fuel
      else .ok ((offset : Int) + i)

/-- `find_opt_end(options)` from `rule.py`: find the end of an option (;)
handling escapes. -/
def find_opt_end (s : List Char) : Except PyErr Int :=
  findOptEndAux s 0 (s.length + 2)

/-- Splitting one scanned option on its first colon:

    if option.find(":") > -1:
        name, val = [x.strip() for x in option.split(":", 1)]
    else:
        name = option; val = None
-/
def splitColonOpt (option : List Char) : List Char × Option (List Char) :=
  match option.findIdx? (· == ':') with
  | Option.none => (option, Option.none)
  | some i => (pyStrip (option.take i), some (pyStrip (option.drop (i + 1))))

/-- The option-scanning loop of `parse`: while options text remains, locate
the end of the next option with `find_opt_end` (raising the no-end-of-option
error on a negative result), slice it off, and split it into name/value.
Returns the name/value pairs in order.  Fuel: every iteration removes at
least the terminator character, so `length + 1` iterations suffice
(`optionsLoop_fuel`). -/
def optionsLoopAux : Nat → List Char → Except PyErr (List (List Char × Option (List Char)))
  | 0, _ => .error .fuelOut
  | fuel + 1, options =>
    if options.isEmpty then .ok []
    else
      match find_opt_end options with
      | .error e => .error e
      | .ok index =>
        if index < 0 then .error .noEndOfOption
        else
          let option := pyStrip (options.take index.toNat)
          let rest := pyStrip (options.drop (index.toNat + 1))
          match optionsLoopAux fuel rest with
          | .error e => .error e
          | .ok pairs => .ok (splitColonOpt option :: pairs)

/-- The option scan of `parse` over the captured options text. -/
def optionsLoop (options : List Char) : Except PyErr (List (List Char × Option (List Char))) :=
  optionsLoopAux (options.length + 1) options

/-- The name-dispatched assignment chain of `parse`'s option handling:
gid/sid/rev as integers, the accumulating metadata/flowbits/reference
fields, noalert, msg quote stripping, and the generic `rule[name] = val`
branch. -/
def applyOptStep (r : Rule) (name : List Char) (val : Option (List Char)) : Except PyErr Rule :=
  if name = "gid".data then
      match pyInt val with
      | .error e => .error e
      | .ok n => .ok { r with gid := .int n }
    else if name = "sid".data then
      match pyInt val with
      | .error e => .error e
      | .ok n => .ok { r with sid := .int n }
    else if name = "rev".data then
      match pyInt val with
      | .error e => .error e
      | .ok n => .ok { r with rev := .int n }
    else if name = "metadata".data then
      match val with
      | Option.none => .error .attributeError
      | some v =>
        match r.metadata with
        | .listOS l =>
          .ok { r with metadata := .listOS (l ++ (pySplitChar ',' v).map (fun x => some (pyStrip x))) }
        | _ => .error .typeError
    else if name = "flowbits".data then
      match r.flowbits with
      | .listOS l =>
        let r1 := { r with flowbits := .listOS (l ++ [val]) }
        match val with
        | some v =>
          if isSubstr "noalert".data v then .ok { r1 with noalert := .bool true }
          else .ok r1
        | Option.none => .ok r1
      | _ => .error .attributeError
    else if name = "noalert".data then
      .ok { r with noalert := .bool true }
    else if name = "reference".data then
      match r.references with
      | .listOS l => .ok { r with references := .listOS (l ++ [val]) }
      | _ => .error .attributeError
    else if name = "msg".data then
      let val' :=
        match val with
        | some v =>
          if v.head? = some '"' && v.getLast? = some '"' then some (v.drop 1 |>.dropLast)
          else some v
        | Option.none => Option.none
      .ok { r with msg := pyvalOfOpt val' }
    else
      .ok (r.setOpt name (pyvalOfOpt val))

/-- Application of one parsed option: the dispatched assignment
(`applyOptStep`), then the unconditional ja3 feature check. -/
def applyOpt (r : Rule) (nameVal : List Char × Option (List Char)) : Except PyErr Rule :=
  match applyOptStep r nameVal.1 nameVal.2 with
  | .error e => .error e
  | .ok r' =>
    if ("ja3".data).isPrefixOf nameVal.1 then
      match r'.features with
      | .listOS l => .ok { r' with features := .listOS (l ++ [some "ja3".data]) }
      | _ => .error .attributeError
    else .ok r'

/-- Fold of `applyOpt` over the scanned options, in order. -/
def applyOpts (r : Rule) : List (List Char × Option (List Char)) → Except PyErr Rule
  | [] => .ok r
  | p :: ps =>
    match applyOpt r p with
    | .error e => .error e
    | .ok r' => applyOpts r' ps

/-- The capture groups of a successful match of `rule_pattern` against a
(stripped) buffer. -/
structure PatMatch where
  enabledGroup : Bool
  raw : List Char
  header : List Char
  options : List Char
deriving DecidableEq

/-- The structural rule regex

    ^(?P<enabled>#)*[\s#]*(?P<raw>(?P<header>[^()]+)\((?P<options>.*)\)$)

as a function.  A match requires: a first parenthesis that is an opening one,
at least one character before it, a final character `)`, and no newline in
the options region (`.` does not match newlines).  With backtracking, the
comment-marker groups consume the longest prefix of `#`/whitespace characters
that still leaves the one-or-more-character header, so the header starts at
`min run0 (i-1)` where `run0` is the length of the leading `#`/whitespace run
and `i` the index of the first parenthesis; the `(?P<enabled>#)*` group has
matched at least once exactly when `min a0 (i-1) > 0` for `a0` the leading
run of `#` alone.  `enabledGroup` records that latter fact
(`m.group("enabled") == "#"`). -/
def rulePatternMatch (s : List Char) : Option PatMatch :=
  match s.findIdx? (fun c => c == '(' || c == ')') with
  | Option.none => Option.none
  | some i =>
    if s.get? i ≠ some '(' then Option.none
    else if i = 0 then Option.none
    else if s.getLast? ≠ some ')' then Option.none
    else
      let options := (s.drop (i + 1)).take (s.length - 1 - (i + 1))
      if options.contains '\n' then Option.none
      else
        let a0 := (s.takeWhile (· == '#')).length
        let run0 := (s.takeWhile (fun c => c == '#' || isPySpace c)).length
        let a := min a0 (i - 1)
        let p := min run0 (i - 1)
        some { enabledGroup := a != 0
               raw := s.drop p
               header := (s.drop p).take (i - p)
               options := options }

/-- One step of the positional header tokenizer: consume a bracketed group
`[...]` (failing with a bare `return`, i.e. `None`, when `]` is missing) or a
whitespace-delimited token. -/
def nextHeaderToken (rem : List Char) : Option (List Char × List Char) :=
  if rem.head? = some '[' then
    match rem.findIdx? (· == ']') with
    | Option.none => Option.none
    | some e => some (pyStrip (rem.take (e + 1)), pyStrip (rem.drop (e + 1)))
  else
    match rem.findIdx? (· == ' ') with
    | Option.none => some (rem, [])
    | some e => some (pyStrip (rem.take e), pyStrip (rem.drop e))

/-- The header loop of `parse`: extract `n` positional tokens, failing
(`None`) when the remaining text runs out before a state is filled; text left
over after the last state is silently dropped. -/
def headerTokensAux : Nat → List Char → Option (List (List Char))
  | 0, _ => some []
  | n + 1, rem =>
    if rem.isEmpty then Option.none
    else
      match nextHeaderToken rem with
      | Option.none => Option.none
      | some (t, rem') =>
        match headerTokensAux n rem' with
        | Option.none => Option.none
        | some ts => some (t :: ts)

/-- The action keywords `parse` accepts (`actions` in `rule.py`). -/
def actions : List (List Char) :=
  ["alert".data, "log".data, "pass".data, "activate".data, "dynamic".data,
   "drop".data, "reject".data, "sdrop".data]

/-- The decoder-rule check and the positional header tokenizer of `parse`:
from the matched header, produce the action token, the direction (absent for
a decoder rule), and the fresh record with the positional header fields
stored; `none` on the parse-failure paths. -/
def headerTriple (pm : PatMatch) (g : PyVal) : Option (List Char × Option (List Char) × Rule) :=
  let header := pyStrip pm.header
  let r0 : Rule := { enabled := .bool (!pm.enabledGroup), group := g }
  if (pySplitChar ' ' header).length = 1 then
    some (header, Option.none, r0)
  else
    match headerTokensAux 7 header with
    | some [act, pr, sa, sp, di, da, dp] =>
      some (act, some di,
        { r0 with proto := .str pr, source_addr := .str sa, source_port := .str sp,
                  dest_addr := .str da, dest_port := .str dp })
    | _ => Option.none

/-- Everything `parse` does between a successful pattern match and the option
scan: build the fresh record, run the decoder-rule check and the positional
header tokenizer (`headerTriple`), validate the action, and store
action/direction/header.  `none` for the parse-failure (`return None`)
paths. -/
def parseHeaderPhase (pm : PatMatch) (g : PyVal) : Option Rule :=
  match headerTriple pm g with
  | Option.none => Option.none
  | some (action, direction, r1) =>
    if actions.contains action then
      some { r1 with action := .str action,
                     direction := pyvalOfOpt direction,
                     header := some (.str (pyStrip pm.header)) }
    else Option.none

/-- `parse` up to (but not including) the final sid check: strip the buffer,
match the structural pattern (`None` on non-match), process the header,
scan and apply the options, and default a missing msg to the empty string.
Returns the record paired with the text of the `raw` capture group. -/
def parseStage (buf : List Char) (group : PyVal) : Except PyErr (Option (Rule × List Char)) :=
  let s := pyStrip buf
  match rulePatternMatch s with
  | Option.none => .ok Option.none
  | some pm =>
    match parseHeaderPhase pm group with
    | Option.none => .ok Option.none
    | some r2 =>
      match optionsLoop pm.options with
      | .error e => .error e
      | .ok pairs =>
        match applyOpts r2 pairs with
        | .error e => .error e
        | .ok r3 =>
          let r4 := if r3.msg = PyVal.none then { r3 with msg := .str [] } else r3
          .ok (some (r4, pm.raw))

/-- `parse(buf, group)` from `rule.py`: `parseStage`, then raise the bad-sid
error when the sid the options left behind is falsy, then store the stripped
`raw` capture group. -/
def parse (buf : List Char) (group : PyVal) : Except PyErr (Option Rule) :=
  match parseStage buf group with
  | .error e => .error e
  | .ok Option.none => .ok Option.none
  | .ok (some (r, rawG)) =>
    if pyTruthy r.sid then .ok (some { r with raw := .str (pyStrip rawG) })
    else .error .badSid

/-- Length of a match of the noalert-injection pattern ` *sid\: *[0-9]+\;`
starting at the head of `s` (`none` when it does not match there).  The
pattern is deterministic: each greedy piece is followed by a literal no
backtracking can resurrect. -/
def noalertMatchLen (s : List Char) : Option Nat :=
  let sp := (s.takeWhile (· == ' ')).length
  let rest := s.drop sp
  if ("sid:".data).isPrefixOf rest then
    let rest2 := rest.drop 4
    let sp2 := (rest2.takeWhile (· == ' ')).length
    let rest3 := rest2.drop sp2
    let d := (rest3.takeWhile Char.isDigit).length
    if d ≠ 0 ∧ rest3.get? d = some ';' then some (sp + 4 + sp2 + d + 1)
    else Option.none
  else Option.none

/-- `re.sub(r'( *sid\: *[0-9]+\;)', r' noalert;\1', raw)`: scan left to
right, replacing every non-overlapping match by ` noalert;` followed by the
match.  Fuel: every step consumes at least one character. -/
def noalertInjectAux : Nat → List Char → List Char
  | 0, s => s
  | fuel + 1, s =>
    match s with
    | [] => []
    | c :: rest =>
      match noalertMatchLen s with
      | some len => " noalert;".data ++ s.take len ++ noalertInjectAux fuel (s.drop len)
      | Option.none => c :: noalertInjectAux fuel rest

/-- The noalert rewrite performed by `Rule.format`. -/
def noalertInject (s : List Char) : List Char :=
  noalertInjectAux (s.length + 1) s

/-- Decimal rendering of an integer (for `str()` of an int). -/
def intRender (n : Int) : List Char :=
  (toString n).data

/-- Python `str()` of a rule's raw value as interpolated by the f-string in
`Rule.format`.  Rendering of a stored list is approximate (it can only arise
from a hand-built record, never from `parse`). -/
def pyValRender : PyVal → List Char
  | PyVal.none => "None".data
  | .bool true => "True".data
  | .bool false => "False".data
  | .int n => intRender n
  | .str s => s
  | .listOS _ => "[...]".data

/-- `Rule.format`:

    if self.noalert and "noalert;" not in self.raw:
        self.raw = re.sub(r'( *sid\: *[0-9]+\;)', r' noalert;\1', self.raw)
    return f'{u"" if self.enabled else u"# "}{self.raw}'

The method mutates `self.raw`; the model returns the updated record together
with the rendered line.  A non-string, non-`None` raw under a truthy noalert
is modelled as the `TypeError` the substitution would raise. -/
def Rule.format (r : Rule) : Except PyErr (Rule × List Char) :=
  let phase1 : Except PyErr Rule :=
    if pyTruthy r.noalert then
      match r.raw with
      | .str s =>
        if !(isSubstr "noalert;".data s) then .ok { r with raw := .str (noalertInject s) }
        else .ok r
      | _ => .error .typeError
    else .ok r
  match phase1 with
  | .error e => .error e
  | .ok r1 =>
    let pre := if pyTruthy r1.enabled then ([] : List Char) else "# ".data
    .ok (r1, pre ++ pyValRender r1.raw)

/-- `Rule.__hash__` returns `self["raw"].__hash__()`: the hash of the rule is
the hash of its raw value, for whatever hash function Python uses on that
value (abstracted as the parameter). -/
def Rule.pyHash (strHash : PyVal → Int) (r : Rule) : Int :=
  strHash r.raw

/-- Equality of two rule records.  `Rule` does not override `__eq__`, so this
is `dict` equality: every key/value pair agrees (the insertion order of the
extra keys is irrelevant, hence permutation there). -/
def ruleEq (a b : Rule) : Prop :=
  a.enabled = b.enabled ∧ a.action = b.action ∧ a.proto = b.proto ∧
  a.source_addr = b.source_addr ∧ a.source_port = b.source_port ∧
  a.direction = b.direction ∧ a.dest_addr = b.dest_addr ∧
  a.dest_port = b.dest_port ∧ a.group = b.group ∧ a.gid = b.gid ∧
  a.sid = b.sid ∧ a.rev = b.rev ∧ a.msg = b.msg ∧ a.flowbits = b.flowbits ∧
  a.metadata = b.metadata ∧ a.references = b.references ∧
  a.classtype = b.classtype ∧ a.priority = b.priority ∧
  a.noalert = b.noalert ∧ a.features = b.features ∧ a.raw = b.raw ∧
  a.header = b.header ∧ a.extras.Perm b.extras

instance (a b : Rule) : Decidable (ruleEq a b) := by
  unfold ruleEq; infer_instance

/-- `FlowbitResolver.setters`. -/
def setters : List (List Char) :=
  ["set".data, "setx".data, "unset".data, "toggle".data]

/-- `FlowbitResolver.getters`. -/
def getters : List (List Char) :=
  ["isset".data, "isnotset".data]

/-- `FlowbitResolver.parse_flowbit(flowbit)`:

    tokens = flowbit.split(",", 1)
    if len(tokens) == 1: return tokens[0], None
    elif len(tokens) == 2: return tokens[0], tokens[1]
    else: raise Exception(...)

A `None` entry in the flowbits list raises the `AttributeError` of
`None.split`; `split(",", 1)` never yields more than two tokens, so the
final branch (`flowbitParse`) is unreachable. -/
def parse_flowbit (flowbit : Option (List Char)) : Except PyErr (List Char × Option (List Char)) :=
  match flowbit with
  | Option.none => .error .attributeError
  | some s =>
    match pySplitFirst ',' s with
    | [t] => .ok (t, Option.none)
    | [t1, t2] => .ok (t1, some t2)
    | _ => .error .flowbitParse

/-- Python iteration over the value of a rule's `flowbits` key, as consumed
by `map(self.parse_flowbit, rule.flowbits)`: a list yields its entries, a
string yields its one-character substrings, anything else raises
`TypeError`. -/
def pyIterOS : PyVal → Except PyErr (List (Option (List Char)))
  | .listOS l => .ok l
  | .str s => .ok (s.map (fun c => some [c]))
  | _ => .error .typeError

/-- `FlowbitResolver.get_required_flowbits(rules)`: the flowbit values named
with a getter verb by any enabled rule (a Python set; the model keeps a list
and uses it only through membership).  The `if rule and ...` dict-truthiness
guard is always true for a record (the dictionary is never empty). -/
def getRequiredFlowbits : List Rule → Except PyErr (List (Option (List Char)))
  | [] => .ok []
  | r :: rest =>
    if pyTruthy r.enabled then
      match pyIterOS r.flowbits with
      | .error e => .error e
      | .ok fbs =>
        match fbs.mapM parse_flowbit with
        | .error e => .error e
        | .ok pairs =>
          match getRequiredFlowbits rest with
          | .error e => .error e
          | .ok req => .ok ((pairs.filter (fun p => getters.contains p.1)).map (·.2) ++ req)
    else getRequiredFlowbits rest

/-- `FlowbitResolver.set_required_flowbits(rules, required)`: walk the
currently disabled rules in map order; a rule with `k` flowbit options whose
verb is a setter and whose value is in `required` is enabled in place and
appended to the returned list once per such option (`k` times).  Returns the
updated rule list together with that list.  The source iterates the values
of a dict keyed by rule ID; the model's list is those values in order. -/
def setRequiredFlowbits : List Rule → List (Option (List Char)) → Except PyErr (List Rule × List Rule)
  | [], _ => .ok ([], [])
  | r :: rest, req =>
    if pyTruthy r.enabled then
      match setRequiredFlowbits rest req with
      | .error e => .error e
      | .ok (rest', en) => .ok (r :: rest', en)
    else
      match pyIterOS r.flowbits with
      | .error e => .error e
      | .ok fbs =>
        match fbs.mapM parse_flowbit with
        | .error e => .error e
        | .ok pairs =>
          let k := (pairs.filter (fun p => setters.contains p.1 && req.contains p.2)).length
          let r' := if k > 0 then { r with enabled := PyVal.bool true } else r
          match setRequiredFlowbits rest req with
          | .error e => .error e
          | .ok (rest', en) => .ok (r' :: rest', List.replicate k r' ++ en)

/-- Number of disabled rules, the measure the resolver's recursion shrinks. -/
def disabledCount (rules : List Rule) : Nat :=
  (rules.filter (fun r => !pyTruthy r.enabled)).length

/-- `FlowbitResolver.resolve(rules)` with the accumulated `self.enabled`
list made explicit (`acc`): one pass computes the required flowbits and
enables the disabled setters; if the pass enabled anything, accumulate and
recurse, otherwise return the rules and the accumulator.  Fuel: each
recursive call strictly decreases `disabledCount`, so `disabledCount + 1`
passes suffice (`resolve_fuel`). -/
def resolveAux : Nat → List Rule → List Rule → Except PyErr (List Rule × List Rule)
  | 0, _, _ => .error .fuelOut
  | fuel + 1, rules, acc =>
    match getRequiredFlowbits rules with
    | .error e => .error e
    | .ok required =>
      match setRequiredFlowbits rules required with
      | .error e => .error e
      | .ok (rules', enabled) =>
        if enabled.isEmpty then .ok (rules, acc)
        else resolveAux fuel rules' (acc ++ enabled)

/-- `FlowbitResolver().resolve(rules)` on a freshly constructed resolver
(`self.enabled = []`), which is how `enable_flowbit_dependencies` invokes
it.  Returns the final rule map and the list of newly enabled rules. -/
def FlowbitResolver.resolve (rules : List Rule) : Except PyErr (List Rule × List Rule) :=
  resolveAux (disabledCount rules + 1) rules []

/-- `enable_flowbit_dependencies(rulemap)`: wrap the class, resolve, hand
back the result. -/
def enable_flowbit_dependencies (rulemap : List Rule) : Except PyErr (List Rule × List Rule) :=
  FlowbitResolver.resolve rulemap

/-- Whether a rule has at least one flowbit option whose verb is a setter
for a value in `req` — the condition under which one pass of
`set_required_flowbits` enables it.  False when iterating or parsing its
flowbits would raise (those runs error out instead). -/
def ruleHasMatch (r : Rule) (req : List (Option (List Char))) : Bool :=
  match pyIterOS r.flowbits with
  | .error _ => false
  | .ok fbs =>
    match fbs.mapM parse_flowbit with
    | .error _ => false
    | .ok pairs => !(pairs.filter (fun p => setters.contains p.1 && req.contains p.2)).isEmpty

/-- Python `\w` over ASCII (the `re.sub("^\w+", "drop", ...)` class). -/
def isWordChar (c : Char) : Bool :=
  c.isAlphanum || c == '_'

/-- `re.sub("^\w+", "drop", s)`: replace a leading word-character run with
`drop`; no match leaves the string unchanged. -/
def subLeadingWord (s : List Char) : List Char :=
  let w := s.takeWhile isWordChar
  if w.isEmpty then s else "drop".data ++ s.drop w.length

/-- `DropRuleFilter.match(rule)`:

    return False if rule["noalert"] else self.matcher.match(rule)

with the wrapped matcher abstracted as a boolean function. -/
def DropRuleFilter.matchRule (matcher : Rule → Bool) (rule : Rule) : Bool :=
  if pyTruthy rule.noalert then false else matcher rule

/-- `DropRuleFilter.run(rule)`: rewrite the leading action word of the raw
text to `drop`, re-parse it (with the default `None` group argument), copy
the enabled flag, return the new record.  A `None` re-parse makes the
subsequent attribute assignment raise (`AttributeError` on `None`); a
non-string raw makes the substitution raise `TypeError`. -/
def DropRuleFilter.run (rule : Rule) : Except PyErr Rule :=
  match rule.raw with
  | .str s =>
    match parse (subLeadingWord s) PyVal.none with
    | .error e => .error e
    | .ok Option.none => .error .attributeError
    | .ok (some d) => .ok { d with enabled := rule.enabled }
  | _ => .error .typeError

/-- `ModifyRuleFilter.run(rule)`:

    modified_rule = self.pattern.sub(self.repl, rule.format())
    parsed = suricata.update.rule.parse(modified_rule, rule.group)
    if parsed is None: log; return rule
    return parsed

The compiled pattern substitution is abstracted as a text-to-text function.
`rule.format()` mutates the rule (noalert injection), so the `return rule`
path returns that updated record. -/
def ModifyRuleFilter.run (sub : List Char → List Char) (rule : Rule) : Except PyErr Rule :=
  match Rule.format rule with
  | .error e => .error e
  | .ok (rule1, txt) =>
    match parse (sub txt) rule1.group with
    | .error e => .error e
    | .ok Option.none => .ok rule1
    | .ok (some parsed) => .ok parsed

/-- `os.path.basename` (posix): the part after the last `/`. -/
def pyBasename (s : List Char) : List Char :=
  (s.reverse.takeWhile (· ≠ '/')).reverse

/-- `os.path.splitext(b)[0]` for a path with no directory part: cut at the
last dot unless every character before it is a dot. -/
def splitextRoot (b : List Char) : List Char :=
  match b.reverse.findIdx? (· == '.') with
  | Option.none => b
  | some k =>
    let i := b.length - 1 - k
    if (b.take i).any (fun c => c != '.') then b.take i else b

/-- `FilenameMatcher.match(rule)`: `False` when the rule's group is `None`
(the `group` key always exists on a record, so `hasattr` holds), otherwise
`fnmatch(rule.group, pattern)` with `fnmatch` abstracted; a non-string group
would raise inside `fnmatch`. -/
def FilenameMatcher.matchRule (fnmatchFn : List Char → List Char → Bool)
    (pattern : List Char) (rule : Rule) : Except PyErr Bool :=
  match rule.group with
  | PyVal.none => .ok false
  | .str g => .ok (fnmatchFn g pattern)
  | _ => .error .typeError

/-- `GroupMatcher.match(rule)`: `False` when the group is `None`; otherwise
try the glob against the group's basename and against the basename with its
extension stripped. -/
def GroupMatcher.matchRule (fnmatchFn : List Char → List Char → Bool)
    (pattern : List Char) (rule : Rule) : Except PyErr Bool :=
  match rule.group with
  | PyVal.none => .ok false
  | .str g =>
    if fnmatchFn (pyBasename g) pattern then .ok true
    else if fnmatchFn (splitextRoot (pyBasename g)) pattern then .ok true
    else .ok false
  | _ => .error .typeError

/-- The option name/value pairs `parse` would scan out of a buffer (the
structural pattern plus the option loop, shared with `parseStage`);
`ok none` when the structural pattern does not match. -/
def ruleOptionPairs (buf : List Char) : Except PyErr (Option (List (List Char × Option (List Char)))) :=
  match rulePatternMatch (pyStrip buf) with
  | Option.none => .ok Option.none
  | some pm =>
    match optionsLoop pm.options with
    | .error e => .error e
    | .ok ps => .ok (some ps)

/-- The record `parse buf None` returns, when it returns one. -/
def parsedRule (buf : List Char) : Option Rule :=
  match parse buf PyVal.none with
  | .ok (some r) => some r
  | _ => Option.none

/-- The sid of the record `parse buf None` returns. -/
def parsedSid (buf : List Char) : Option PyVal :=
  (parsedRule buf).map Rule.sid

/-- The enabled value of the record `parse buf None` returns. -/
def parsedEnabled (buf : List Char) : Option PyVal :=
  (parsedRule buf).map Rule.enabled

/-- The noalert value of the record `parse buf None` returns. -/
def parsedNoalert (buf : List Char) : Option PyVal :=
  (parsedRule buf).map Rule.noalert

/-- The line `format` renders for the record `parse buf None` returns. -/
def formatOfParse (buf : List Char) : Option (List Char) :=
  match parsedRule buf with
  | some r =>
    match Rule.format r with
    | .ok (_, t) => some t
    | .error _ => Option.none
  | Option.none => Option.none

/-- The group field of the record `DropRuleFilter.run` produces. -/
def dropGroupOf (r : Rule) : Option PyVal :=
  match DropRuleFilter.run r with
  | .ok d => some d.group
  | .error _ => Option.none

/-- The record parsed from the canonical round-trip witness line. -/
def c5Rec : Rule :=
  (parsedRule "alert tcp any any -> any any (sid:1;)".data).getD {}

/-- An enabled rule requiring flowbit `foo` through a getter. -/
def fbRuleGet : Rule :=
  { enabled := PyVal.bool true, flowbits := PyVal.listOS [some "isset,foo".data] }

/-- A disabled rule with two setter options for flowbit `foo`. -/
def fbRuleSet : Rule :=
  { enabled := PyVal.bool false,
    flowbits := PyVal.listOS [some "set,foo".data, some "toggle,foo".data] }

/-- `fbRuleSet` after the resolver enables it. -/
def fbRuleSetOn : Rule :=
  { fbRuleSet with enabled := PyVal.bool true }

/-- A minimal enabled rule record with a plain string raw. -/
def c4Rule : Rule :=
  { enabled := PyVal.bool true, raw := PyVal.str "x".data }

/-- An enabled record with a fixed raw. -/
def c7A : Rule :=
  { enabled := PyVal.bool true,
    raw := PyVal.str "alert tcp any any -> any any (sid:1;)".data }

/-- The same record as `c7A` except disabled. -/
def c7B : Rule :=
  { c7A with enabled := PyVal.bool false }

/-- A rule whose group is set and whose raw text carries a `group:` option. -/
def c10Rule : Rule :=
  { enabled := PyVal.bool true,
    group := PyVal.str "orig.rules".data,
    raw := PyVal.str "alert tcp any any -> any any (group:foo.rules; sid:9;)".data }

/-- C3 (amended): `parse_flowbit` never raises on a string flowbit option:
`split(",", 1)` yields at most two tokens, so the error branch is dead.  It
returns the text before the first comma as the verb and everything after it
(later commas included) as the value, the value being null when the option
has no comma. -/
theorem parse_flowbit_never_raises :
    (∀ s : List Char, s.findIdx? (· == ',') = Option.none →
      parse_flowbit (some s) = .ok (s, Option.none)) ∧
    (∀ (s : List Char) (i : Nat), s.findIdx? (· == ',') = some i →
      parse_flowbit (some s) = .ok (s.take i, some (s.drop (i + 1)))) := by
  constructor
  · intro s h
    simp [parse_flowbit, pySplitFirst, h]
  · intro s i h
    simp [parse_flowbit, pySplitFirst, h]

/-- Witness for C3 at the option `set,foo,bar` (first comma at index 3). -/
theorem parse_flowbit_never_raises_witness :
    parse_flowbit (some "set,foo,bar".data) =
      .ok ("set,foo,bar".data.take 3, some ("set,foo,bar".data.drop 4)) :=
  parse_flowbit_never_raises.2 "set,foo,bar".data 3 (by decide)

/-- C3 counterexample: on `set,foo,bar` — more than one comma-separated
segment beyond the verb — `parse_flowbit` does not raise; it returns the
verb `set` with the value `foo,bar`. -/
theorem parse_flowbit_three_segments_cex :
    parse_flowbit (some "set,foo,bar".data) = .ok ("set".data, some "foo,bar".data) := by
  rfl

/-- C9: `DropRuleFilter.match` returns false whenever the rule's noalert
flag is true, regardless of the wrapped matcher, and returns exactly the
wrapped matcher's result when the flag is false. -/
theorem drop_match_noalert :
    (∀ (m : Rule → Bool) (r : Rule), r.noalert = PyVal.bool true →
      DropRuleFilter.matchRule m r = false) ∧
    (∀ (m : Rule → Bool) (r : Rule), r.noalert = PyVal.bool false →
      DropRuleFilter.matchRule m r = m r) := by
  constructor
  · intro m r h
    simp [DropRuleFilter.matchRule, h, pyTruthy]
  · intro m r h
    simp [DropRuleFilter.matchRule, h, pyTruthy]

/-- Witness for C9 with an always-true matcher on both flag values. -/
theorem drop_match_noalert_witness :
    DropRuleFilter.matchRule (fun _ => true) { noalert := PyVal.bool true } = false ∧
    DropRuleFilter.matchRule (fun _ => true) { noalert := PyVal.bool false } =
      (fun (_ : Rule) => true) { noalert := PyVal.bool false } :=
  ⟨drop_match_noalert.1 (fun _ => true) { noalert := PyVal.bool true } rfl,
   drop_match_noalert.2 (fun _ => true) { noalert := PyVal.bool false } rfl⟩

/-- C4 (amended): when the substituted text re-parses to `None` (structural
non-match), `ModifyRuleFilter.run` returns the input rule unchanged apart
from the noalert injection `format` may have applied; but when the re-parse
raises (bad sid, missing option terminator, unparsable integer), the
exception propagates out of `run` instead of the original rule being
returned. -/
theorem modify_run_reparse :
    (∀ (sub : List Char → List Char) (rule rule1 : Rule) (txt : List Char),
      Rule.format rule = .ok (rule1, txt) →
      parse (sub txt) rule1.group = .ok Option.none →
      ModifyRuleFilter.run sub rule = .ok rule1) ∧
    (∀ (sub : List Char → List Char) (rule rule1 : Rule) (txt : List Char) (e : PyErr),
      Rule.format rule = .ok (rule1, txt) →
      parse (sub txt) rule1.group = .error e →
      ModifyRuleFilter.run sub rule = .error e) := by
  constructor
  · intro sub rule rule1 txt hf hp
    simp [ModifyRuleFilter.run, hf, hp]
  · intro sub rule rule1 txt e hf hp
    simp [ModifyRuleFilter.run, hf, hp]

/-- Witness for C4: a rule whose formatted text is `x`; a substitution to a
non-rule gives back the rule, a substitution to a rule with an unterminated
option propagates that error. -/
theorem modify_run_reparse_witness :
    ModifyRuleFilter.run (fun _ => "#".data) c4Rule = .ok c4Rule ∧
    ModifyRuleFilter.run (fun _ => "alert tcp any any -> any any (msg:a)".data) c4Rule =
      .error .noEndOfOption :=
  ⟨modify_run_reparse.1 (fun _ => "#".data) c4Rule c4Rule "x".data (by rfl) (by rfl),
   modify_run_reparse.2 (fun _ => "alert tcp any any -> any any (msg:a)".data) c4Rule c4Rule
     "x".data PyErr.noEndOfOption (by rfl) (by rfl)⟩

/-- C4 counterexample: a substitution whose output drops the sid makes the
re-parse raise the bad-sid error, and `run` propagates it to the caller
instead of returning the original rule. -/
theorem modify_run_propagates_error_cex :
    ModifyRuleFilter.run (fun _ => "alert tcp any any -> any any (msg:a;)".data) c4Rule =
      .error .badSid := by
  rfl

/-- C7 (amended): hashing is determined by the raw value alone, but equality
is full dictionary equality: equal records must in particular agree on the
enabled flag as well as on raw. -/
theorem rule_identity_hash_and_dict_eq :
    (∀ (h : PyVal → Int) (a b : Rule), a.raw = b.raw →
      Rule.pyHash h a = Rule.pyHash h b) ∧
    (∀ a b : Rule, ruleEq a b → a.enabled = b.enabled ∧ a.raw = b.raw) := by
  constructor
  · intro h a b hr
    simp [Rule.pyHash, hr]
  · intro a b h
    obtain ⟨h1, -, -, -, -, -, -, -, -, -, -, -, -, -, -, -, -, -, -, -, hraw, -, -⟩ := h
    exact ⟨h1, hraw⟩

/-- Witness for C7 at two concrete records. -/
theorem rule_identity_hash_and_dict_eq_witness :
    Rule.pyHash (fun _ => 0) c7A = Rule.pyHash (fun _ => 0) c7B ∧
    (c7A.enabled = c7A.enabled ∧ c7A.raw = c7A.raw) :=
  ⟨rule_identity_hash_and_dict_eq.1 (fun _ => 0) c7A c7B rfl,
   rule_identity_hash_and_dict_eq.2 c7A c7A (by constructor <;> simp [ruleEq])⟩

/-- C7 counterexample: two records with the same raw but different enabled
state are not equal (dict equality compares every field), though the claim
says records with equal raw are equal. -/
theorem rule_eq_not_by_raw_cex :
    c7A.raw = c7B.raw ∧ ¬ ruleEq c7A c7B := by
  refine ⟨rfl, fun h => ?_⟩
  exact absurd h.1 (by decide)

/-- C2 counterexample: on a rule whose options text is the single character
`a` (no semicolon at all), `parse` raises the modelled `IndexError` of
`options[-2]`, not the no-end-of-option error. -/
theorem parse_index_error_cex :
    parse "alert tcp any any -> any any (a)".data PyVal.none = .error .indexError ∧
    PyErr.indexError ≠ PyErr.noEndOfOption := by
  exact ⟨rfl, by decide⟩

/-- C6 counterexample: `sid:-5;` is accepted — the record is returned with
the negative sid `-5`, so successfully parsed records need not have a
positive sid. -/
theorem parse_negative_sid_cex :
    parsedSid "alert tcp any any -> any any (sid:-5;)".data = some (PyVal.int (-5)) ∧
    (-5 : Int) < 0 := by
  exact ⟨rfl, by decide⟩

/-- C5 counterexample: a valid enabled rule line with a trailing space
(no pending noalert injection) does not round-trip: `format` returns the
stripped line, which differs from the original. -/
theorem format_parse_trailing_space_cex :
    parsedEnabled "alert tcp any any -> any any (sid:1;) ".data = some (PyVal.bool true) ∧
    parsedNoalert "alert tcp any any -> any any (sid:1;) ".data = some (PyVal.bool false) ∧
    formatOfParse "alert tcp any any -> any any (sid:1;) ".data =
      some "alert tcp any any -> any any (sid:1;)".data ∧
    "alert tcp any any -> any any (sid:1;)".data ≠
      "alert tcp any any -> any any (sid:1;) ".data := by
  refine ⟨rfl, rfl, rfl, by decide⟩

/-- C10 counterexample: on a rule whose text itself carries a `group:`
option, `DropRuleFilter.run` returns a record whose group is that option's
value — not null — even though the input rule's own group was set. -/
theorem drop_run_group_cex :
    dropGroupOf c10Rule = some (PyVal.str "foo.rules".data) ∧
    c10Rule.group = PyVal.str "orig.rules".data ∧
    PyVal.str "foo.rules".data ≠ PyVal.none := by
  refine ⟨rfl, rfl, by decide⟩

/-- C1 counterexample: resolving a map with one enabled getter of `foo` and
one disabled rule carrying two setter options for `foo` returns that newly
enabled rule twice (once per matching setter option), so the returned list
is not exactly the set of rules whose flag was flipped. -/
theorem resolve_duplicate_enabled_cex :
    FlowbitResolver.resolve [fbRuleGet, fbRuleSet] =
      .ok ([fbRuleGet, fbRuleSetOn], [fbRuleSetOn, fbRuleSetOn]) ∧
    ¬ [fbRuleSetOn, fbRuleSetOn].Nodup := by
  exact ⟨rfl, by decide⟩

/-- A successful `pythonGet` probe at a nonnegative index is a plain list
lookup. -/
theorem pythonGet_ok_nonneg {s : List Char} {k : Int} {c : Char}
    (hk : 0 ≤ k) (h : pythonGet s k = .ok c) : s.get? k.toNat = some c := by
  simp only [pythonGet] at h
  rw [if_neg (by omega : ¬ k < 0), if_neg (by omega : ¬ k < 0)] at h
  rcases hg : s.get? k.toNat with _ | c'
  · rw [hg] at h
    cases h
  · rw [hg] at h
    simp only [Except.ok.injEq] at h
    rw [h]

/-- When the character is absent, the relative find returns `-1`. -/
theorem pyFindRel_none {s : List Char} {off : Nat} {c : Char} (h : c ∉ s) :
    pyFindRel s off c = -1 := by
  unfold pyFindRel
  rw [List.findIdx?_eq_none_iff.mpr]
  intro x hx
  have : x ∈ s := List.drop_subset off s hx
  simp only [beq_eq_false_iff_ne, ne_eq]
  intro hxc
  exact h (hxc ▸ this)

/-- Whatever index the scan of `find_opt_end` returns, the character probed
just before it was not a backslash: an escaped semicolon is never returned
as an option terminator. -/
theorem findOptEndAux_escaped (s : List Char) :
    ∀ (fuel offset : Nat) (i : Int), findOptEndAux s offset fuel = .ok i → 0 ≤ i →
      s.get? i.toNat = some ';' → i = 0 ∨ s.get? (i.toNat - 1) ≠ some '\\' := by
  intro fuel
  induction fuel with
  | zero =>
    intro offset i h
    simp [findOptEndAux] at h
  | succ n ih =>
    intro offset i h hi hsemi
    simp only [findOptEndAux] at h
    rcases hg : pythonGet s ((offset : Int) + pyFindRel s offset ';' - 1) with e | c
    · rw [hg] at h
      cases h
    · rw [hg] at h
      dsimp only at h
      by_cases hc : c = '\\'
      · rw [if_pos hc] at h
        exact ih (offset + 2) i h hi hsemi
      · rw [if_neg hc] at h
        simp only [Except.ok.injEq] at h
        subst h
        by_cases hz : (offset : Int) + pyFindRel s offset ';' = 0
        · exact Or.inl hz
        · right
          intro hcontra
          have hnn : 0 ≤ (offset : Int) + pyFindRel s offset ';' - 1 := by omega
          have hget := pythonGet_ok_nonneg hnn hg
          have htn : ((offset : Int) + pyFindRel s offset ';' - 1).toNat =
              ((offset : Int) + pyFindRel s offset ';').toNat - 1 := by omega
          rw [htn, hcontra] at hget
          simp only [Option.some.injEq] at hget
          exact hc hget.symm

/-- C2 (amended): when the options text still to scan contains no semicolon
at all, `parse`'s scan raises the no-end-of-option error only in the case
the backslash probe at `options[offset - 2]` (wrapping around the string
end) sees a valid non-backslash character at offset 0: then `find_opt_end`
returns `-1` and the option loop raises the distinguished error.  Whatever
index the scan does return, the probed character before it was not a
backslash, so an escaped semicolon never terminates an option.  (In the
remaining no-semicolon configurations the scan raises `IndexError` or
returns a spurious index instead — see the counterexample.) -/
theorem find_opt_end_no_semicolon :
    (∀ s : List Char, ';' ∉ s → 2 ≤ s.length → s.get? (s.length - 2) ≠ some '\\' →
      find_opt_end s = .ok (-1)) ∧
    (∀ (s : List Char) (i : Int), find_opt_end s = .ok i → 0 ≤ i →
      s.get? i.toNat = some ';' → i = 0 ∨ s.get? (i.toNat - 1) ≠ some '\\') ∧
    (∀ opts : List Char, opts ≠ [] → ∀ i : Int, find_opt_end opts = .ok i → i < 0 →
      optionsLoop opts = .error .noEndOfOption) := by
  refine ⟨?_, ?_, ?_⟩
  · intro s hnot hlen hlast
    show findOptEndAux s 0 (s.length + 2) = .ok (-1)
    have hfuel : s.length + 2 = (s.length + 1) + 1 := rfl
    rw [hfuel]
    simp only [findOptEndAux]
    rw [pyFindRel_none hnot]
    have harg : ((0 : Nat) : Int) + -1 - 1 = -2 := by norm_num
    rw [harg]
    have hlt : s.length - 2 < s.length := by omega
    have hpg : pythonGet s (-2) = .ok (s.get ⟨s.length - 2, hlt⟩) := by
      simp only [pythonGet]
      rw [if_pos (by norm_num : (-2 : Int) < 0)]
      rw [if_neg (by omega : ¬ (s.length : Int) + -2 < 0)]
      have htn : ((s.length : Int) + -2).toNat = s.length - 2 := by omega
      rw [htn, List.get?_eq_get hlt]
    rw [hpg]
    dsimp only
    rw [if_neg (fun hcc => hlast (by rw [List.get?_eq_get hlt]; exact congrArg some hcc))]
    norm_num
  · intro s i h hi hsemi
    unfold find_opt_end at h
    exact findOptEndAux_escaped s (s.length + 2) 0 i h hi hsemi
  · intro opts hne i h hi
    unfold optionsLoop
    simp only [optionsLoopAux]
    rw [if_neg (by simpa [List.isEmpty_iff] using hne)]
    rw [h]
    dsimp only
    rw [if_pos hi]

/-- Witness for C2 on the options texts `ab` (no semicolon: error raised)
and `a;` (semicolon found at 1, probe saw `a`). -/
theorem find_opt_end_no_semicolon_witness :
    find_opt_end "ab".data = .ok (-1) ∧
    ((1 : Int) = 0 ∨ "a;".data.get? ((1 : Int).toNat - 1) ≠ some '\\') ∧
    optionsLoop "ab".data = .error .noEndOfOption :=
  ⟨find_opt_end_no_semicolon.1 "ab".data (by decide) (by decide) (by decide),
   find_opt_end_no_semicolon.2.1 "a;".data 1 (by rfl) (by decide) (by rfl),
   find_opt_end_no_semicolon.2.2 "ab".data (by decide) (-1) (by rfl) (by decide)⟩

/-- A generic assignment under any name but `sid` leaves the sid key alone. -/
theorem setOpt_sid {r : Rule} {name : List Char} {v : PyVal} (h : name ≠ "sid".data) :
    (r.setOpt name v).sid = r.sid := by
  simp [Rule.setOpt, h]

/-- A generic assignment under any name but `group` leaves the group key
alone. -/
theorem setOpt_group {r : Rule} {name : List Char} {v : PyVal} (h : name ≠ "group".data) :
    (r.setOpt name v).group = r.group := by
  simp [Rule.setOpt, h]

/-- A generic assignment either leaves the enabled key alone or overwrites
it with the assigned value. -/
theorem setOpt_enabled_shape (r : Rule) (name : List Char) (v : PyVal) :
    (r.setOpt name v).enabled = r.enabled ∨ (r.setOpt name v).enabled = v := by
  by_cases h : name = "enabled".data
  · right; simp [Rule.setOpt, h]
  · left; simp [Rule.setOpt, h]

/-- One option assignment leaves the sid alone or stores an integer there
(the `sid` branch converts through `int()`). -/
theorem applyOptStep_sid_shape {r r' : Rule} {name : List Char} {val : Option (List Char)}
    (h : applyOptStep r name val = .ok r') :
    r'.sid = r.sid ∨ ∃ n : Int, r'.sid = PyVal.int n := by
  unfold applyOptStep at h
  repeat' split at h
  all_goals (try cases h)
  all_goals first
    | exact Or.inl rfl
    | exact Or.inr ⟨_, rfl⟩
    | (exact Or.inl (setOpt_sid (by assumption)))

/-- One option assignment leaves the group alone unless the option is
literally named `group`. -/
theorem applyOptStep_group {r r' : Rule} {name : List Char} {val : Option (List Char)}
    (h : applyOptStep r name val = .ok r') :
    r'.group = r.group ∨ name = "group".data := by
  unfold applyOptStep at h
  repeat' split at h
  all_goals (try cases h)
  all_goals first
    | exact Or.inl rfl
    | exact dite _ (fun hg => Or.inr hg) (fun hg => Or.inl (setOpt_group hg))

/-- One option assignment leaves the enabled key alone or overwrites it with
an option value (`None` or a string) — never with a boolean. -/
theorem applyOptStep_enabled {r r' : Rule} {name : List Char} {val : Option (List Char)}
    (h : applyOptStep r name val = .ok r') :
    r'.enabled = r.enabled ∨ r'.enabled = PyVal.none ∨ ∃ s, r'.enabled = PyVal.str s := by
  unfold applyOptStep at h
  repeat' split at h
  all_goals (try cases h)
  all_goals try exact Or.inl rfl
  -- remaining: the generic branch `r.setOpt name (pyvalOfOpt val)`
  all_goals rcases setOpt_enabled_shape r name (pyvalOfOpt val) with he | he
  all_goals try exact Or.inl he
  all_goals rcases val with _ | v
  all_goals simp only [pyvalOfOpt] at he
  · exact Or.inr (Or.inl he)
  · exact Or.inr (Or.inr ⟨v, he⟩)

/-- The ja3 feature append of `applyOpt` touches only the features key, so
the step's sid shape carries over. -/
theorem applyOpt_sid_shape {r r' : Rule} {p : List Char × Option (List Char)}
    (h : applyOpt r p = .ok r') :
    r'.sid = r.sid ∨ ∃ n : Int, r'.sid = PyVal.int n := by
  unfold applyOpt at h
  rcases hs : applyOptStep r p.1 p.2 with e | r2 <;> rw [hs] at h
  · cases h
  · dsimp only at h
    by_cases hj : ("ja3".data).isPrefixOf p.1
    · rw [if_pos hj] at h
      rcases hf : r2.features with _ | b | n | sN | l <;> rw [hf] at h
      · cases h
      · cases h
      · cases h
      · cases h
      · cases h
        have h2 := applyOptStep_sid_shape hs
        exact h2
    · rw [if_neg hj] at h
      cases h
      exact applyOptStep_sid_shape hs

/-- Group version of `applyOpt_sid_shape`. -/
theorem applyOpt_group {r r' : Rule} {p : List Char × Option (List Char)}
    (h : applyOpt r p = .ok r') :
    r'.group = r.group ∨ p.1 = "group".data := by
  unfold applyOpt at h
  rcases hs : applyOptStep r p.1 p.2 with e | r2 <;> rw [hs] at h
  · cases h
  · dsimp only at h
    by_cases hj : ("ja3".data).isPrefixOf p.1
    · rw [if_pos hj] at h
      rcases hf : r2.features with _ | b | n | sN | l <;> rw [hf] at h
      · cases h
      · cases h
      · cases h
      · cases h
      · cases h
        have h2 := applyOptStep_group hs
        exact h2
    · rw [if_neg hj] at h
      cases h
      exact applyOptStep_group hs

/-- Enabled version of `applyOpt_sid_shape`. -/
theorem applyOpt_enabled {r r' : Rule} {p : List Char × Option (List Char)}
    (h : applyOpt r p = .ok r') :
    r'.enabled = r.enabled ∨ r'.enabled = PyVal.none ∨ ∃ s, r'.enabled = PyVal.str s := by
  unfold applyOpt at h
  rcases hs : applyOptStep r p.1 p.2 with e | r2 <;> rw [hs] at h
  · cases h
  · dsimp only at h
    by_cases hj : ("ja3".data).isPrefixOf p.1
    · rw [if_pos hj] at h
      rcases hf : r2.features with _ | b | n | sN | l <;> rw [hf] at h
      · cases h
      · cases h
      · cases h
      · cases h
      · cases h
        have h2 := applyOptStep_enabled hs
        exact h2
    · rw [if_neg hj] at h
      cases h
      exact applyOptStep_enabled hs

/-- Over a whole option list, the sid is the initial one or an integer. -/
theorem applyOpts_sid_shape :
    ∀ (ps : List (List Char × Option (List Char))) (r r' : Rule),
      applyOpts r ps = .ok r' → r'.sid = r.sid ∨ ∃ n : Int, r'.sid = PyVal.int n := by
  intro ps
  induction ps with
  | nil =>
    intro r r' h
    cases h
    exact Or.inl rfl
  | cons p ps ih =>
    intro r r' h
    unfold applyOpts at h
    rcases ha : applyOpt r p with e | r1 <;> rw [ha] at h
    · cases h
    · rcases ih r1 r' h with h1 | h2
      · rcases applyOpt_sid_shape ha with h3 | ⟨n, h4⟩
        · exact Or.inl (h1.trans h3)
        · exact Or.inr ⟨n, h1.trans h4⟩
      · exact Or.inr h2

/-- Over a whole option list, the group is the initial one unless some
option is literally named `group`. -/
theorem applyOpts_group :
    ∀ (ps : List (List Char × Option (List Char))) (r r' : Rule),
      applyOpts r ps = .ok r' →
      r'.group = r.group ∨ ∃ p ∈ ps, p.1 = "group".data := by
  intro ps
  induction ps with
  | nil =>
    intro r r' h
    cases h
    exact Or.inl rfl
  | cons p ps ih =>
    intro r r' h
    unfold applyOpts at h
    rcases ha : applyOpt r p with e | r1 <;> rw [ha] at h
    · cases h
    · rcases ih r1 r' h with h1 | ⟨q, hq, hqn⟩
      · rcases applyOpt_group ha with h3 | h4
        · exact Or.inl (h1.trans h3)
        · exact Or.inr ⟨p, List.mem_cons_self p ps, h4⟩
      · exact Or.inr ⟨q, List.mem_cons_of_mem p hq, hqn⟩

/-- Over a whole option list, the enabled key keeps its initial value or
holds an option value (`None` or a string). -/
theorem applyOpts_enabled :
    ∀ (ps : List (List Char × Option (List Char))) (r r' : Rule),
      applyOpts r ps = .ok r' →
      r'.enabled = r.enabled ∨ r'.enabled = PyVal.none ∨ ∃ s, r'.enabled = PyVal.str s := by
  intro ps
  induction ps with
  | nil =>
    intro r r' h
    cases h
    exact Or.inl rfl
  | cons p ps ih =>
    intro r r' h
    unfold applyOpts at h
    rcases ha : applyOpt r p with e | r1 <;> rw [ha] at h
    · cases h
    · rcases ih r1 r' h with h1 | h2
      · rcases applyOpt_enabled ha with h3 | h4
        · exact Or.inl (h1.trans h3)
        · exact Or.inr (h1 ▸ h4)
      · exact Or.inr h2


/-- The record inside a successful `headerTriple`: enabled is the boolean
from the pattern, group is the caller's group argument, and the sid/raw keys
still hold their defaults. -/
theorem headerTriple_fields {pm : PatMatch} {g : PyVal} {a : List Char}
    {d : Option (List Char)} {r1 : Rule} (h : headerTriple pm g = some (a, d, r1)) :
    r1.sid = PyVal.none ∧ r1.group = g ∧
      r1.enabled = PyVal.bool (!pm.enabledGroup) ∧ r1.raw = PyVal.none := by
  simp only [headerTriple] at h
  repeat' split at h
  all_goals (try cases h)
  all_goals exact ⟨rfl, rfl, rfl, rfl⟩

/-- Same facts for the record `parseHeaderPhase` hands to the option scan. -/
theorem parseHeaderPhase_fields {pm : PatMatch} {g : PyVal} {r2 : Rule}
    (h : parseHeaderPhase pm g = some r2) :
    r2.sid = PyVal.none ∧ r2.group = g ∧
      r2.enabled = PyVal.bool (!pm.enabledGroup) ∧ r2.raw = PyVal.none := by
  unfold parseHeaderPhase at h
  rcases ht : headerTriple pm g with _ | ⟨a, d, r1⟩ <;> rw [ht] at h
  · cases h
  · dsimp only at h
    by_cases hc : actions.contains a
    · rw [if_pos hc] at h
      injection h with h2
      subst h2
      have hf := headerTriple_fields ht
      exact ⟨hf.1, hf.2.1, hf.2.2.1, hf.2.2.2⟩
    · rw [if_neg hc] at h
      cases h

/-- Decomposition of a successful `parseStage` run into its phases. -/
theorem parseStage_ok_shape {buf : List Char} {g : PyVal} {r : Rule} {rawG : List Char}
    (h : parseStage buf g = .ok (some (r, rawG))) :
    ∃ pm r2 pairs, rulePatternMatch (pyStrip buf) = some pm ∧
      parseHeaderPhase pm g = some r2 ∧
      optionsLoop pm.options = .ok pairs ∧
      ∃ r3, applyOpts r2 pairs = .ok r3 ∧
        r = (if r3.msg = PyVal.none then { r3 with msg := PyVal.str [] } else r3) ∧
        rawG = pm.raw := by
  simp only [parseStage] at h
  rcases hm : rulePatternMatch (pyStrip buf) with _ | pm <;> rw [hm] at h <;> dsimp only at h
  · simp at h
  · rcases hh : parseHeaderPhase pm g with _ | r2 <;> rw [hh] at h <;> dsimp only at h
    · simp at h
    · rcases ho : optionsLoop pm.options with e | pairs <;> rw [ho] at h <;> dsimp only at h
      · simp at h
      · rcases ha : applyOpts r2 pairs with e | r3 <;> rw [ha] at h <;> dsimp only at h
        · simp at h
        · simp only [Except.ok.injEq, Option.some.injEq, Prod.mk.injEq] at h
          exact ⟨pm, r2, pairs, rfl, hh, ho, r3, ha, h.1.symm, h.2.symm⟩

/-- After `parseStage`, the sid key is still null or holds an integer. -/
theorem parseStage_sid_shape {buf : List Char} {g : PyVal} {r : Rule} {rawG : List Char}
    (h : parseStage buf g = .ok (some (r, rawG))) :
    r.sid = PyVal.none ∨ ∃ n : Int, r.sid = PyVal.int n := by
  obtain ⟨pm, r2, pairs, hm, hh, ho, r3, ha, hr, -⟩ := parseStage_ok_shape h
  have h2 := (parseHeaderPhase_fields hh).1
  have h3 := applyOpts_sid_shape pairs r2 r3 ha
  have hmsg : r.sid = r3.sid := by
    rw [hr]; split <;> rfl
  rw [hmsg]
  rcases h3 with h4 | h4
  · rw [h4, h2]
    exact Or.inl rfl
  · exact Or.inr h4

/-- C6 (amended): relative to the record the option scan produced, `parse`
raises the bad-sid error exactly when the sid key is null or zero; and every
record `parse` successfully returns carries a nonzero — though possibly
negative — integer sid. -/
theorem parse_sid_check :
    (∀ (buf : List Char) (g : PyVal) (r : Rule) (rawG : List Char),
      parseStage buf g = .ok (some (r, rawG)) →
      (parse buf g = .error .badSid ↔ (r.sid = PyVal.none ∨ r.sid = PyVal.int 0))) ∧
    (∀ (buf : List Char) (g : PyVal) (r : Rule),
      parse buf g = .ok (some r) → ∃ n : Int, r.sid = PyVal.int n ∧ n ≠ 0) := by
  constructor
  · intro buf g r rawG hst
    have hshape := parseStage_sid_shape hst
    unfold parse
    rw [hst]
    dsimp only
    constructor
    · intro hbad
      by_cases ht : pyTruthy r.sid
      · rw [if_pos ht] at hbad
        cases hbad
      · rcases hshape with h1 | ⟨n, h1⟩
        · exact Or.inl h1
        · rw [h1] at ht ⊢
          simp only [pyTruthy, bne_iff_ne, ne_eq, not_not] at ht
          rw [ht]
          exact Or.inr rfl
    · intro hz
      rcases hz with h1 | h1 <;> rw [if_neg (by rw [h1]; simp [pyTruthy])]
  · intro buf g r h
    unfold parse at h
    rcases hs : parseStage buf g with e | o <;> rw [hs] at h
    · cases h
    · rcases o with _ | ⟨r0, rawG⟩
      · simp at h
      · dsimp only at h
        by_cases ht : pyTruthy r0.sid
        · rw [if_pos ht] at h
          simp only [Except.ok.injEq, Option.some.injEq] at h
          rcases parseStage_sid_shape hs with h1 | ⟨n, h1⟩
          · rw [h1] at ht
            simp [pyTruthy] at ht
          · refine ⟨n, ?_, ?_⟩
            · rw [← h, h1]
            · rw [h1] at ht
              simpa [pyTruthy] using ht
        · rw [if_neg ht] at h
          cases h

/-- Witness for C6: a line whose options leave the sid null (bad-sid raised)
and a line with `sid:7` (record returned with a nonzero sid). -/
theorem parse_sid_check_witness :
    (parse "alert tcp any any -> any any (msg:a;)".data PyVal.none = .error .badSid ↔
      (PyVal.none = PyVal.none ∨ PyVal.none = PyVal.int 0)) ∧
    (∃ n : Int, PyVal.int 7 = PyVal.int n ∧ n ≠ 0) := by
  constructor
  · have h := parse_sid_check.1 "alert tcp any any -> any any (msg:a;)".data PyVal.none _ _ rfl
    exact h
  · have h := parse_sid_check.2 "alert tcp any any -> any any (sid:7;)".data PyVal.none _ rfl
    exact h

/-- C10 (amended): `DropRuleFilter.run` never passes the input rule's group
to the parser — its result is independent of that field — so the new
record's group comes only from the re-parsed text: it is null unless the
rule text itself carries an option literally named `group`; and whenever a
record's group is null, the filename- and group-based matchers return
false on it. -/
theorem drop_run_group :
    (∀ (r : Rule) (v : PyVal), DropRuleFilter.run { r with group := v } = DropRuleFilter.run r) ∧
    (∀ (buf : List Char) (r : Rule), parse buf PyVal.none = .ok (some r) →
      r.group = PyVal.none ∨
        ∃ pairs, ruleOptionPairs buf = .ok (some pairs) ∧ ∃ p ∈ pairs, p.1 = "group".data) ∧
    (∀ (fnm : List Char → List Char → Bool) (pat : List Char) (r : Rule),
      r.group = PyVal.none →
      FilenameMatcher.matchRule fnm pat r = .ok false ∧
      GroupMatcher.matchRule fnm pat r = .ok false) := by
  refine ⟨?_, ?_, ?_⟩
  · intro r v
    rfl
  · intro buf r h
    unfold parse at h
    rcases hs : parseStage buf PyVal.none with e | o <;> rw [hs] at h
    · cases h
    · rcases o with _ | ⟨r0, rawG⟩
      · simp at h
      · dsimp only at h
        by_cases ht : pyTruthy r0.sid
        · rw [if_pos ht] at h
          simp only [Except.ok.injEq, Option.some.injEq] at h
          obtain ⟨pm, r2, pairs, hm, hh, ho, r3, ha, hr0, -⟩ := parseStage_ok_shape hs
          have hg2 : r2.group = PyVal.none := (parseHeaderPhase_fields hh).2.1
          have hrg : r.group = r3.group := by
            rw [← h]
            show r0.group = r3.group
            rw [hr0]
            split <;> rfl
          rcases applyOpts_group pairs r2 r3 ha with h1 | ⟨p, hp, hpn⟩
          · left
            rw [hrg, h1, hg2]
          · right
            refine ⟨pairs, ?_, p, hp, hpn⟩
            unfold ruleOptionPairs
            rw [hm]
            dsimp only
            rw [ho]
        · rw [if_neg ht] at h
          cases h
  · intro fnm pat r h
    constructor
    · unfold FilenameMatcher.matchRule
      rw [h]
    · unfold GroupMatcher.matchRule
      rw [h]

/-- Witness for C10: group-independence at a concrete record, the group
disjunction at a plain sid-only line, and the matcher failure at the default
(null-group) record. -/
theorem drop_run_group_witness :
    DropRuleFilter.run { c10Rule with group := PyVal.int 3 } = DropRuleFilter.run c10Rule ∧
    (PyVal.none = PyVal.none ∨
      ∃ pairs, ruleOptionPairs "alert tcp any any -> any any (sid:7;)".data = .ok (some pairs) ∧
        ∃ p ∈ pairs, p.1 = "group".data) ∧
    (FilenameMatcher.matchRule (fun _ _ => true) [] {} = .ok false ∧
      GroupMatcher.matchRule (fun _ _ => true) [] {} = .ok false) := by
  refine ⟨drop_run_group.1 c10Rule (PyVal.int 3), ?_, ?_⟩
  · have h := drop_run_group.2.1 "alert tcp any any -> any any (sid:7;)".data _ rfl
    exact h
  · exact drop_run_group.2.2 (fun _ _ => true) [] {} rfl

/-- What one `set_required_flowbits` pass does, pointwise and to the
returned enabled list: an enabled rule is left alone; a disabled rule is
enabled exactly when it has a matching setter option; and the returned list
holds, for each disabled rule with matching setters, that rule (enabled)
once per matching option — so membership in it is exactly "was disabled and
had a matching setter". -/
theorem setRequiredFlowbits_spec :
    ∀ (rules : List Rule) (req : List (Option (List Char))) (rules' en : List Rule),
      setRequiredFlowbits rules req = .ok (rules', en) →
      rules'.length = rules.length ∧
      (∀ (i : Nat) (r : Rule), rules.get? i = some r →
        (pyTruthy r.enabled = true → rules'.get? i = some r) ∧
        (pyTruthy r.enabled = false →
          rules'.get? i =
            some (if ruleHasMatch r req then { r with enabled := PyVal.bool true } else r))) ∧
      (∀ x : Rule, x ∈ en ↔ ∃ (i : Nat) (r : Rule), rules.get? i = some r ∧
        pyTruthy r.enabled = false ∧ ruleHasMatch r req = true ∧
        x = { r with enabled := PyVal.bool true }) := by
  intro rules
  induction rules with
  | nil =>
    intro req rules' en h
    simp only [setRequiredFlowbits, Except.ok.injEq, Prod.mk.injEq] at h
    obtain ⟨h1, h2⟩ := h
    subst h1; subst h2
    refine ⟨rfl, ?_, ?_⟩
    · intro i r hr
      simp at hr
    · intro x
      simp
  | cons r rest ih =>
    intro req rules' en h
    simp only [setRequiredFlowbits] at h
    by_cases he : pyTruthy r.enabled
    · rw [if_pos he] at h
      rcases hrec : setRequiredFlowbits rest req with e | p <;> rw [hrec] at h
      · cases h
      · rcases p with ⟨rest', enr⟩
        dsimp only at h
        simp only [Except.ok.injEq, Prod.mk.injEq] at h
        obtain ⟨h1, h2⟩ := h
        subst h1; subst h2
        obtain ⟨ihl, ihp, ihm⟩ := ih req rest' enr hrec
        refine ⟨by simp [ihl], ?_, ?_⟩
        · intro i r0 hr0
          cases i with
          | zero =>
            simp only [List.get?_cons_zero, Option.some.injEq] at hr0
            subst hr0
            constructor
            · intro _; rfl
            · intro hfalse; rw [hfalse] at he; cases he
          | succ j =>
            simp only [List.get?_cons_succ] at hr0 ⊢
            exact ihp j r0 hr0
        · intro x
          rw [ihm x]
          constructor
          · rintro ⟨i, r0, hget, hdis, hmat, hx⟩
            exact ⟨i + 1, r0, by simpa using hget, hdis, hmat, hx⟩
          · rintro ⟨i, r0, hget, hdis, hmat, hx⟩
            cases i with
            | zero =>
              simp only [List.get?_cons_zero, Option.some.injEq] at hget
              subst hget
              rw [hdis] at he; cases he
            | succ j =>
              simp only [List.get?_cons_succ] at hget
              exact ⟨j, r0, hget, hdis, hmat, hx⟩
    · rw [if_neg he] at h
      rcases hfbs : pyIterOS r.flowbits with e | fbs <;> rw [hfbs] at h
      · cases h
      · dsimp only at h
        rcases hpairs : fbs.mapM parse_flowbit with e | pairs <;> rw [hpairs] at h
        · cases h
        · dsimp only at h
          rcases hrec : setRequiredFlowbits rest req with e | p <;> rw [hrec] at h
          · cases h
          · rcases p with ⟨rest', enr⟩
            dsimp only at h
            simp only [Except.ok.injEq, Prod.mk.injEq] at h
            obtain ⟨h1, h2⟩ := h
            have hmatch : ruleHasMatch r req =
                !(pairs.filter (fun p => setters.contains p.1 && req.contains p.2)).isEmpty := by
              unfold ruleHasMatch
              rw [hfbs]
              dsimp only
              rw [hpairs]
            set k := (pairs.filter (fun p => setters.contains p.1 && req.contains p.2)).length with hk
            have hkiff : ruleHasMatch r req = true ↔ 0 < k := by
              rw [hmatch, hk]
              simp [List.isEmpty_iff, List.length_pos, List.length_eq_zero]
            obtain ⟨ihl, ihp, ihm⟩ := ih req rest' enr hrec
            subst h1; subst h2
            refine ⟨by simp [ihl], ?_, ?_⟩
            · intro i r0 hr0
              cases i with
              | zero =>
                simp only [List.get?_cons_zero, Option.some.injEq] at hr0
                subst hr0
                constructor
                · intro htrue; rw [htrue] at he; cases he rfl
                · intro _
                  simp only [List.get?_cons_zero, Option.some.injEq]
                  by_cases hm : ruleHasMatch r req
                  · rw [if_pos hm, if_pos (hkiff.mp hm)]
                  · rw [if_neg hm]
                    have : ¬ 0 < k := fun hc => hm (hkiff.mpr hc)
                    rw [if_neg this]
              | succ j =>
                simp only [List.get?_cons_succ] at hr0 ⊢
                exact ihp j r0 hr0
            · intro x
              simp only [List.mem_append, List.mem_replicate, ihm x]
              constructor
              · rintro (⟨hkne, hx⟩ | ⟨i, r0, hget, hdis, hmat, hx⟩)
                · have hkpos : 0 < k := Nat.pos_of_ne_zero hkne
                  have hm : ruleHasMatch r req = true := hkiff.mpr hkpos
                  refine ⟨0, r, by simp, by simpa using he, hm, ?_⟩
                  rw [hx, if_pos hkpos]
                · exact ⟨i + 1, r0, by simpa using hget, hdis, hmat, hx⟩
              · rintro ⟨i, r0, hget, hdis, hmat, hx⟩
                cases i with
                | zero =>
                  simp only [List.get?_cons_zero, Option.some.injEq] at hget
                  subst hget
                  left
                  have hkpos : 0 < k := hkiff.mp hmat
                  exact ⟨Nat.pos_iff_ne_zero.mp hkpos, by rw [hx, if_pos hkpos]⟩
                | succ j =>
                  simp only [List.get?_cons_succ] at hget
                  exact Or.inr ⟨j, r0, hget, hdis, hmat, hx⟩

/-- An enabled head does not contribute to the disabled count. -/
theorem disabledCount_cons_enabled {r : Rule} (l : List Rule)
    (h : pyTruthy r.enabled = true) : disabledCount (r :: l) = disabledCount l := by
  simp [disabledCount, List.filter_cons, h]

/-- A disabled head contributes one to the disabled count. -/
theorem disabledCount_cons_disabled {r : Rule} (l : List Rule)
    (h : pyTruthy r.enabled = false) : disabledCount (r :: l) = disabledCount l + 1 := by
  simp [disabledCount, List.filter_cons, h]

/-- A pass never disables anything: the disabled count cannot grow. -/
theorem srf_disabledCount_le :
    ∀ (rules : List Rule) (req : List (Option (List Char))) (rules' en : List Rule),
      setRequiredFlowbits rules req = .ok (rules', en) →
      disabledCount rules' ≤ disabledCount rules := by
  intro rules
  induction rules with
  | nil =>
    intro req rules' en h
    simp only [setRequiredFlowbits, Except.ok.injEq, Prod.mk.injEq] at h
    obtain ⟨h1, h2⟩ := h
    subst h1
    exact le_refl _
  | cons r rest ih =>
    intro req rules' en h
    simp only [setRequiredFlowbits] at h
    by_cases he : pyTruthy r.enabled
    · rw [if_pos he] at h
      rcases hrec : setRequiredFlowbits rest req with e | ⟨rest', enr⟩ <;> rw [hrec] at h
      · cases h
      · dsimp only at h
        simp only [Except.ok.injEq, Prod.mk.injEq] at h
        obtain ⟨h1, h2⟩ := h
        subst h1
        rw [disabledCount_cons_enabled rest' he, disabledCount_cons_enabled rest he]
        exact ih req rest' enr hrec
    · rw [if_neg he] at h
      have hef : pyTruthy r.enabled = false := by
        revert he; cases pyTruthy r.enabled <;> simp
      rcases hfbs : pyIterOS r.flowbits with e | fbs <;> rw [hfbs] at h
      · cases h
      · dsimp only at h
        rcases hpairs : fbs.mapM parse_flowbit with e | pairs <;> rw [hpairs] at h
        · cases h
        · dsimp only at h
          rcases hrec : setRequiredFlowbits rest req with e | ⟨rest', enr⟩ <;> rw [hrec] at h
          · cases h
          · dsimp only at h
            simp only [Except.ok.injEq, Prod.mk.injEq] at h
            obtain ⟨h1, h2⟩ := h
            subst h1
            have hle := ih req rest' enr hrec
            by_cases hk :
              0 < (pairs.filter (fun p => setters.contains p.1 && req.contains p.2)).length
            · rw [if_pos hk]
              rw [disabledCount_cons_enabled rest' (by rfl :
                pyTruthy ({ r with enabled := PyVal.bool true } : Rule).enabled = true)]
              rw [disabledCount_cons_disabled rest hef]
              omega
            · rw [if_neg hk]
              rw [disabledCount_cons_disabled rest' hef, disabledCount_cons_disabled rest hef]
              omega

/-- A pass that enabled something strictly shrinks the disabled count. -/
theorem srf_disabledCount_lt :
    ∀ (rules : List Rule) (req : List (Option (List Char))) (rules' en : List Rule),
      setRequiredFlowbits rules req = .ok (rules', en) → en ≠ [] →
      disabledCount rules' < disabledCount rules := by
  intro rules
  induction rules with
  | nil =>
    intro req rules' en h hne
    simp only [setRequiredFlowbits, Except.ok.injEq, Prod.mk.injEq] at h
    exact absurd h.2.symm hne
  | cons r rest ih =>
    intro req rules' en h hne
    simp only [setRequiredFlowbits] at h
    by_cases he : pyTruthy r.enabled
    · rw [if_pos he] at h
      rcases hrec : setRequiredFlowbits rest req with e | ⟨rest', enr⟩ <;> rw [hrec] at h
      · cases h
      · dsimp only at h
        simp only [Except.ok.injEq, Prod.mk.injEq] at h
        obtain ⟨h1, h2⟩ := h
        subst h1
        subst h2
        rw [disabledCount_cons_enabled rest' he, disabledCount_cons_enabled rest he]
        exact ih req rest' enr hrec hne
    · rw [if_neg he] at h
      have hef : pyTruthy r.enabled = false := by
        revert he; cases pyTruthy r.enabled <;> simp
      rcases hfbs : pyIterOS r.flowbits with e | fbs <;> rw [hfbs] at h
      · cases h
      · dsimp only at h
        rcases hpairs : fbs.mapM parse_flowbit with e | pairs <;> rw [hpairs] at h
        · cases h
        · dsimp only at h
          rcases hrec : setRequiredFlowbits rest req with e | ⟨rest', enr⟩ <;> rw [hrec] at h
          · cases h
          · dsimp only at h
            simp only [Except.ok.injEq, Prod.mk.injEq] at h
            obtain ⟨h1, h2⟩ := h
            subst h1
            subst h2
            have hle := srf_disabledCount_le rest req rest' enr hrec
            by_cases hk :
              0 < (pairs.filter (fun p => setters.contains p.1 && req.contains p.2)).length
            · rw [if_pos hk]
              rw [disabledCount_cons_enabled rest' (by rfl :
                pyTruthy ({ r with enabled := PyVal.bool true } : Rule).enabled = true)]
              rw [disabledCount_cons_disabled rest hef]
              omega
            · rw [if_neg hk]
              rw [disabledCount_cons_disabled rest' hef, disabledCount_cons_disabled rest hef]
              have henr : enr ≠ [] := by
                intro hc
                apply hne
                have hk0 : (pairs.filter
                    (fun p => setters.contains p.1 && req.contains p.2)).length = 0 := by omega
                rw [hc, List.append_nil, hk0]
                rfl
              have hlt := ih req rest' enr hrec henr
              omega

/-- Invariant of the resolver recursion: when `resolveAux` returns, the
returned map is a fixed point of one pass (the pass enables nothing), it is
the input map with some disabled rules flipped to enabled in place, and the
returned list holds the accumulator plus exactly the flipped rules. -/
theorem resolveAux_ok :
    ∀ (fuel : Nat) (rules acc final en : List Rule),
      resolveAux fuel rules acc = .ok (final, en) →
      (∃ req rules2, getRequiredFlowbits final = .ok req ∧
        setRequiredFlowbits final req = .ok (rules2, [])) ∧
      final.length = rules.length ∧
      (∀ (i : Nat) (r : Rule), rules.get? i = some r →
        ∃ r', final.get? i = some r' ∧
          (r' = r ∨ (pyTruthy r.enabled = false ∧ r' = { r with enabled := PyVal.bool true }))) ∧
      (∀ x : Rule, x ∈ en ↔ x ∈ acc ∨ ∃ (i : Nat) (r r' : Rule),
        rules.get? i = some r ∧ final.get? i = some r' ∧ pyTruthy r.enabled = false ∧
        r' = { r with enabled := PyVal.bool true } ∧ x = r') := by
  intro fuel
  induction fuel with
  | zero =>
    intro rules acc final en h
    simp [resolveAux] at h
  | succ n ih =>
    intro rules acc final en h
    simp only [resolveAux] at h
    rcases hreq : getRequiredFlowbits rules with e | required <;> rw [hreq] at h
    · cases h
    · dsimp only at h
      rcases hsrf : setRequiredFlowbits rules required with e | ⟨rules1, en1⟩ <;> rw [hsrf] at h
      · cases h
      · dsimp only at h
        obtain ⟨hlen1, hpt, hmem⟩ := setRequiredFlowbits_spec rules required rules1 en1 hsrf
        by_cases hemp : en1.isEmpty
        · rw [if_pos hemp] at h
          simp only [Except.ok.injEq, Prod.mk.injEq] at h
          obtain ⟨h1, h2⟩ := h
          subst h1
          subst h2
          have hen1 : en1 = [] := by
            cases en1
            · rfl
            · cases hemp
          refine ⟨⟨required, rules1, hreq, by rw [hen1] at hsrf; exact hsrf⟩, rfl, ?_, ?_⟩
          · intro i r hr
            exact ⟨r, hr, Or.inl rfl⟩
          · intro x
            constructor
            · intro hx
              exact Or.inl hx
            · rintro (hx | ⟨i, r, r', hg1, hg2, hdis, hr', hx⟩)
              · exact hx
              · rw [hg1] at hg2
                injection hg2 with hg3
                rw [hg3] at hdis
                rw [hr'] at hdis
                cases hdis
        · rw [if_neg hemp] at h
          obtain ⟨hfix, hlen2, hpt2, hmem2⟩ := ih rules1 (acc ++ en1) final en h
          refine ⟨hfix, by omega, ?_, ?_⟩
          · intro i r hr
            have hi1 : i < rules1.length := by
              have := (List.get?_eq_some.mp hr).1
              omega
            by_cases he : pyTruthy r.enabled
            · have hr1 : rules1.get? i = some r := (hpt i r hr).1 he
              obtain ⟨r', hfin, hrel⟩ := hpt2 i r hr1
              rcases hrel with h1 | ⟨hdis, h1⟩
              · exact ⟨r', hfin, Or.inl h1⟩
              · rw [he] at hdis
                cases hdis
            · have hef : pyTruthy r.enabled = false := by
                revert he; cases pyTruthy r.enabled <;> simp
              have hr1 := (hpt i r hr).2 hef
              by_cases hm : ruleHasMatch r required
              · rw [if_pos hm] at hr1
                obtain ⟨r', hfin, hrel⟩ := hpt2 i _ hr1
                rcases hrel with h1 | ⟨hdis, h1⟩
                · exact ⟨r', hfin, Or.inr ⟨hef, h1⟩⟩
                · cases hdis
              · rw [if_neg hm] at hr1
                obtain ⟨r', hfin, hrel⟩ := hpt2 i r hr1
                rcases hrel with h1 | ⟨hdis, h1⟩
                · exact ⟨r', hfin, Or.inl h1⟩
                · exact ⟨r', hfin, Or.inr ⟨hef, h1⟩⟩
          · intro x
            rw [hmem2 x]
            constructor
            · rintro (hx | ⟨i, r1, r', hg1, hg2, hdis1, hr', hx⟩)
              · rcases List.mem_append.mp hx with ha | he1
                · exact Or.inl ha
                · obtain ⟨i, r, hr, hdis, hmat, hx1⟩ := (hmem x).mp he1
                  have hr1 : rules1.get? i = some { r with enabled := PyVal.bool true } := by
                    have := (hpt i r hr).2 hdis
                    rw [if_pos hmat] at this
                    exact this
                  obtain ⟨r', hfin, hrel⟩ := hpt2 i _ hr1
                  rcases hrel with h1 | ⟨hdis2, h1⟩
                  · exact Or.inr ⟨i, r, r', hr, hfin, hdis, h1, by rw [hx1, ← h1]⟩
                  · cases hdis2
              · have hi : i < rules.length := by
                  have := (List.get?_eq_some.mp hg1).1
                  omega
                have hr : rules.get? i = some (rules.get ⟨i, hi⟩) := List.get?_eq_get hi
                set r := rules.get ⟨i, hi⟩ with hrdef
                by_cases he : pyTruthy r.enabled
                · have := (hpt i r hr).1 he
                  rw [this] at hg1
                  injection hg1 with hg3
                  rw [← hg3] at hdis1
                  rw [hdis1] at he
                  cases he
                · have hef : pyTruthy r.enabled = false := by
                    revert he; cases pyTruthy r.enabled <;> simp
                  have hr1 := (hpt i r hr).2 hef
                  by_cases hm : ruleHasMatch r required
                  · rw [if_pos hm] at hr1
                    rw [hr1] at hg1
                    injection hg1 with hg3
                    rw [← hg3] at hdis1
                    simp [pyTruthy] at hdis1
                  · rw [if_neg hm] at hr1
                    rw [hr1] at hg1
                    injection hg1 with hg3
                    refine Or.inr ⟨i, r, r', hr, hg2, hef, ?_, hx⟩
                    rw [hr', hg3]
            · rintro (hx | ⟨i, r, r', hg1, hg2, hdis, hr', hx⟩)
              · exact Or.inl (List.mem_append.mpr (Or.inl hx))
              · by_cases hm : ruleHasMatch r required
                · refine Or.inl (List.mem_append.mpr (Or.inr ?_))
                  rw [hmem x]
                  exact ⟨i, r, hg1, hdis, hm, by rw [hx, hr']⟩
                · have hr1 := (hpt i r hg1).2 hdis
                  rw [if_neg hm] at hr1
                  exact Or.inr ⟨i, r, r', hr1, hg2, hdis, hr', hx⟩

/-- C1 (amended): when `resolve` returns, the map is at a fixed point — no
rule still disabled carries a setter option for a flowbit value an enabled
rule requires through a getter — and the returned list contains exactly the
rules whose enabled flag the call flipped from false to true (each possibly
listed more than once, once per matching setter option in the flipping
pass). -/
theorem resolve_fixedpoint_enabled_list :
    ∀ (rules final en : List Rule), FlowbitResolver.resolve rules = .ok (final, en) →
      (∀ req, getRequiredFlowbits final = .ok req →
        ∀ r, r ∈ final → pyTruthy r.enabled = false → ruleHasMatch r req = false) ∧
      final.length = rules.length ∧
      (∀ x : Rule, x ∈ en ↔ ∃ (i : Nat) (r r' : Rule), rules.get? i = some r ∧
        final.get? i = some r' ∧ pyTruthy r.enabled = false ∧
        r' = { r with enabled := PyVal.bool true } ∧ x = r') := by
  intro rules final en h
  obtain ⟨⟨req0, rules2, hreq0, hsrf0⟩, hlen, hpt, hmem⟩ :=
    resolveAux_ok (disabledCount rules + 1) rules [] final en h
  refine ⟨?_, hlen, ?_⟩
  · intro req hreq r hrmem hdis
    rw [hreq] at hreq0
    injection hreq0 with he0
    subst he0
    obtain ⟨-, -, hm⟩ := setRequiredFlowbits_spec final req rules2 [] hsrf0
    by_contra hcon
    have hmt : ruleHasMatch r req = true := by
      revert hcon; cases ruleHasMatch r req <;> simp
    obtain ⟨i, hgi⟩ := List.mem_iff_get?.mp hrmem
    have hx : ({ r with enabled := PyVal.bool true } : Rule) ∈ ([] : List Rule) :=
      (hm _).mpr ⟨i, r, hgi, hdis, hmt, rfl⟩
    cases hx
  · intro x
    rw [hmem x]
    simp only [List.mem_nil_iff, false_or]

/-- Witness for C1 at the concrete two-rule map of the counterexample. -/
theorem resolve_fixedpoint_enabled_list_witness :
    (∀ req, getRequiredFlowbits [fbRuleGet, fbRuleSetOn] = .ok req →
      ∀ r, r ∈ [fbRuleGet, fbRuleSetOn] → pyTruthy r.enabled = false →
        ruleHasMatch r req = false) ∧
    [fbRuleGet, fbRuleSetOn].length = [fbRuleGet, fbRuleSet].length ∧
    (∀ x : Rule, x ∈ [fbRuleSetOn, fbRuleSetOn] ↔ ∃ (i : Nat) (r r' : Rule),
      [fbRuleGet, fbRuleSet].get? i = some r ∧
      [fbRuleGet, fbRuleSetOn].get? i = some r' ∧ pyTruthy r.enabled = false ∧
      r' = { r with enabled := PyVal.bool true } ∧ x = r') :=
  resolve_fixedpoint_enabled_list [fbRuleGet, fbRuleSet] [fbRuleGet, fbRuleSetOn]
    [fbRuleSetOn, fbRuleSetOn] (by rfl)

/-- C8: resolving an already-resolved rule map enables nothing: the map is
returned unchanged together with an empty newly-enabled list. -/
theorem resolve_idempotent :
    ∀ (rules final en : List Rule), FlowbitResolver.resolve rules = .ok (final, en) →
      FlowbitResolver.resolve final = .ok (final, []) := by
  intro rules final en h
  obtain ⟨⟨req0, rules2, hreq0, hsrf0⟩, -, -, -⟩ :=
    resolveAux_ok (disabledCount rules + 1) rules [] final en h
  show resolveAux (disabledCount final + 1) final [] = .ok (final, [])
  simp only [resolveAux]
  rw [hreq0]
  dsimp only
  rw [hsrf0]
  rfl

/-- Witness for C8 at the concrete two-rule map. -/
theorem resolve_idempotent_witness :
    FlowbitResolver.resolve [fbRuleGet, fbRuleSetOn] = .ok ([fbRuleGet, fbRuleSetOn], []) :=
  resolve_idempotent [fbRuleGet, fbRuleSet] [fbRuleGet, fbRuleSetOn]
    [fbRuleSetOn, fbRuleSetOn] (by rfl)

/-- Stripping only shrinks a string. -/
theorem pyStrip_length_le (s : List Char) : (pyStrip s).length ≤ s.length := by
  unfold pyStrip
  have h1 := (List.dropWhile_sublist (l := (s.dropWhile isPySpace).reverse) isPySpace).length_le
  have h2 := (List.dropWhile_sublist (l := s) isPySpace).length_le
  simp only [List.length_reverse] at h1 ⊢
  omega

/-- A string equal to its own stripped form does not start with
whitespace. -/
theorem pyStrip_head_not_space {s : List Char} {c : Char} (hs : pyStrip s = s)
    (hc : s.head? = some c) : isPySpace c = false := by
  by_contra hcon
  have hsp : isPySpace c = true := by
    revert hcon; cases isPySpace c <;> simp
  rcases s with _ | ⟨c1, t⟩
  · cases hc
  · injection hc with hc0
    rw [← hc0] at hsp
    have hdw : (c1 :: t).dropWhile isPySpace = t.dropWhile isPySpace := by
      simp [List.dropWhile_cons, hsp]
    have hlen : (pyStrip (c1 :: t)).length ≤ t.length := by
      unfold pyStrip
      rw [hdw]
      have h1 := (List.dropWhile_sublist (l := (t.dropWhile isPySpace).reverse) isPySpace).length_le
      have h2 := (List.dropWhile_sublist (l := t) isPySpace).length_le
      simp only [List.length_reverse] at h1 ⊢
      omega
    rw [hs] at hlen
    simp at hlen

/-- An empty take-while prefix means the head fails the predicate. -/
theorem takeWhile_head_false {p : Char → Bool} {s : List Char} {c : Char}
    (h : (s.takeWhile p).length = 0) (hc : s.head? = some c) : p c = false := by
  rcases s with _ | ⟨c1, t⟩
  · cases hc
  · injection hc with hc0
    rw [← hc0]
    rw [List.takeWhile_cons] at h
    by_cases hp : p c1
    · rw [if_pos hp] at h
      simp at h
    · revert hp; cases p c1 <;> simp

/-- A head failing the predicate makes the take-while prefix empty. -/
theorem takeWhile_head_zero {p : Char → Bool} {s : List Char} {c : Char}
    (hc : s.head? = some c) (h : p c = false) : (s.takeWhile p).length = 0 := by
  rcases s with _ | ⟨c1, t⟩
  · cases hc
  · injection hc with hc0
    rw [← hc0] at h
    rw [List.takeWhile_cons, h]
    simp

/-- For a line equal to its stripped form that parses to a record whose
enabled key is the boolean `true`, the comment-marker groups matched
nothing, so the `raw` capture — and hence the stored raw — is the whole
line. -/
theorem parse_enabled_raw {line : List Char} {r : Rule}
    (h : parse line PyVal.none = .ok (some r)) (hen : r.enabled = PyVal.bool true)
    (hstrip : pyStrip line = line) :
    r.raw = PyVal.str line := by
  unfold parse at h
  rcases hs : parseStage line PyVal.none with e | o <;> rw [hs] at h
  · cases h
  · rcases o with _ | ⟨r0, rawG⟩
    · simp at h
    · dsimp only at h
      by_cases ht : pyTruthy r0.sid
      · rw [if_pos ht] at h
        simp only [Except.ok.injEq, Option.some.injEq] at h
        obtain ⟨pm, r2, pairs, hm, hh, ho, r3, ha, hr0, hrg⟩ := parseStage_ok_shape hs
        have hen0 : r0.enabled = PyVal.bool true := by
          rw [← h] at hen
          exact hen
        have hen3 : r3.enabled = PyVal.bool true := by
          have he03 : r0.enabled = r3.enabled := by
            rw [hr0]; split <;> rfl
          rw [← he03]
          exact hen0
        have hen2 : r2.enabled = PyVal.bool true := by
          rcases applyOpts_enabled pairs r2 r3 ha with h1 | h1 | ⟨ss, h1⟩
          · rw [← h1]; exact hen3
          · rw [h1] at hen3; cases hen3
          · rw [h1] at hen3; cases hen3
        have hegf : pm.enabledGroup = false := by
          have h2 := (parseHeaderPhase_fields hh).2.2.1
          rw [hen2] at h2
          injection h2 with h3
          revert h3
          cases pm.enabledGroup <;> simp
        rw [hstrip] at hm
        simp only [rulePatternMatch] at hm
        rcases hfi : line.findIdx? (fun c => c == '(' || c == ')') with _ | i <;> rw [hfi] at hm
        · cases hm
        · dsimp only at hm
          by_cases h1 : line.get? i ≠ some '('
          · rw [if_pos h1] at hm; cases hm
          · rw [if_neg h1] at hm
            by_cases h2 : i = 0
            · rw [if_pos h2] at hm; cases hm
            · rw [if_neg h2] at hm
              by_cases h3 : line.getLast? ≠ some ')'
              · rw [if_pos h3] at hm; cases hm
              · rw [if_neg h3] at hm
                by_cases h4 : ((line.drop (i + 1)).take (line.length - 1 - (i + 1))).contains '\n'
                · rw [if_pos h4] at hm; cases hm
                · rw [if_neg h4] at hm
                  injection hm with hm2
                  subst hm2
                  have hmin : min (line.takeWhile (· == '#')).length (i - 1) = 0 := by
                    have : ((min (line.takeWhile (· == '#')).length (i - 1) != 0) : Bool) = false := hegf
                    simpa using this
                  have hp : min (line.takeWhile (fun c => c == '#' || isPySpace c)).length (i - 1) = 0 := by
                    rcases Nat.min_eq_zero_iff.mp hmin with ha0 | hi1
                    · have hilen : i < line.length := by
                        have hg : line.get? i = some '(' := not_not.mp h1
                        exact (List.get?_eq_some.mp hg).1
                      have hne : line ≠ [] := by
                        intro hc; rw [hc] at hilen; simp at hilen
                      obtain ⟨c, hc⟩ : ∃ c, line.head? = some c := by
                        rcases line with _ | ⟨c1, t⟩
                        · exact absurd rfl hne
                        · exact ⟨c1, rfl⟩
                      have hnh : (c == '#') = false := @takeWhile_head_false (fun x => x == '#') line c ha0 hc
                      have hns : isPySpace c = false := pyStrip_head_not_space hstrip hc
                      have hz : (line.takeWhile (fun c => c == '#' || isPySpace c)).length = 0 :=
                        @takeWhile_head_zero (fun c => c == '#' || isPySpace c) line c hc
                          (by show (c == '#' || isPySpace c) = false; rw [hnh, hns]; rfl)
                      rw [hz]
                      exact Nat.zero_min _
                    · rw [hi1]
                      exact Nat.min_zero _
                  have hraw : rawG = line := by
                    rw [hrg]
                    show line.drop (min (line.takeWhile (fun c => c == '#' || isPySpace c)).length (i - 1)) = line
                    rw [hp]
                    exact List.drop_zero _
                  rw [← h]
                  show PyVal.str (pyStrip rawG) = PyVal.str line
                  rw [hraw, hstrip]
      · rw [if_neg ht] at h
        cases h

/-- C5 (amended): for a valid rule line equal to its own stripped form that
parses to a record whose enabled key is the boolean true and that has no
pending noalert injection (the noalert flag is false, or the line — which is
the stored raw text — already contains the literal `noalert;`), formatting
the parsed record reproduces the line exactly. -/
theorem format_parse_roundtrip :
    ∀ (line : List Char) (r : Rule),
      parse line PyVal.none = .ok (some r) → r.enabled = PyVal.bool true →
      (r.noalert = PyVal.bool false ∨ isSubstr "noalert;".data line = true) →
      pyStrip line = line →
      Rule.format r = .ok (r, line) := by
  intro line r h hen hnoal hstrip
  have hraw : r.raw = PyVal.str line := parse_enabled_raw h hen hstrip
  have htrue : pyTruthy r.enabled = true := by rw [hen]; rfl
  simp only [Rule.format]
  by_cases hna : pyTruthy r.noalert
  · rcases hnoal with h5 | h5
    · rw [h5] at hna
      cases hna
    · rw [if_pos hna, hraw]
      dsimp only
      rw [h5]
      rw [if_neg (by simp : ¬((!true : Bool) = true))]
      dsimp only
      rw [htrue, if_pos rfl, hraw]
      rfl
  · rw [if_neg hna]
    dsimp only
    rw [htrue, if_pos rfl, hraw]
    rfl

/-- Witness for C5 at the line `alert tcp any any -> any any (sid:1;)`. -/
theorem format_parse_roundtrip_witness :
    Rule.format c5Rec = .ok (c5Rec, "alert tcp any any -> any any (sid:1;)".data) := by
  have h := format_parse_roundtrip "alert tcp any any -> any any (sid:1;)".data c5Rec
    (by rfl) (by rfl) (Or.inl (by rfl)) (by rfl)
  exact h

/-- `pythonGet` only ever raises the index error. -/
theorem pythonGet_error {s : List Char} {k : Int} {e : PyErr}
    (h : pythonGet s k = .error e) : e = .indexError := by
  simp only [pythonGet] at h
  set j : Int := if k < 0 then (s.length : Int) + k else k with hj
  by_cases hlt : j < 0
  · rw [if_pos hlt] at h
    injection h with h1
    exact h1.symm
  · rw [if_neg hlt] at h
    rcases hg : s.get? j.toNat with _ | c <;> rw [hg] at h
    · injection h with h1
      exact h1.symm
    · cases h

/-- Bounds a successful `pythonGet` imposes on its index. -/
theorem pythonGet_ok_bounds {s : List Char} {k : Int} {c : Char}
    (h : pythonGet s k = .ok c) : (0 ≤ k ∧ k < s.length) ∨ (k < 0 ∧ 0 ≤ (s.length : Int) + k) := by
  simp only [pythonGet] at h
  set j : Int := if k < 0 then (s.length : Int) + k else k with hj
  by_cases hlt : j < 0
  · rw [if_pos hlt] at h
    cases h
  · rw [if_neg hlt] at h
    rcases hg : s.get? j.toNat with _ | c' <;> rw [hg] at h
    · cases h
    · have hb := (List.get?_eq_some.mp hg).1
      by_cases hk : k < 0
      · rw [hj, if_pos hk] at hlt
        exact Or.inr ⟨hk, by omega⟩
      · rw [hj, if_neg hk] at hb hlt
        refine Or.inl ⟨by omega, by omega⟩

/-- The relative find never returns anything below `-1`. -/
theorem pyFindRel_ge (s : List Char) (off : Nat) (c : Char) : -1 ≤ pyFindRel s off c := by
  unfold pyFindRel
  rcases s.drop off |>.findIdx? (· == c) with _ | k
  · simp
  · dsimp only
    omega

/-- The backslash-skip loop cannot exhaust a fuel of `length + 2`: each pass
adds 2 to the offset, and a pass only recurses while the probed index is in
range, which keeps the offset at most `length + 1`. -/
theorem findOptEndAux_fuel (s : List Char) :
    ∀ (fuel offset : Nat), offset ≤ s.length + 3 → s.length + 4 ≤ 2 * fuel + offset →
      findOptEndAux s offset fuel ≠ .error .fuelOut := by
  intro fuel
  induction fuel with
  | zero =>
    intro offset hub hb h
    omega
  | succ n ih =>
    intro offset hub hb h
    simp only [findOptEndAux] at h
    rcases hg : pythonGet s ((offset : Int) + pyFindRel s offset ';' - 1) with e | c <;>
      rw [hg] at h
    · injection h with h1
      have := pythonGet_error hg
      rw [this] at h1
      cases h1
    · dsimp only at h
      by_cases hc : c = '\\'
      · rw [if_pos hc] at h
        have hge := pyFindRel_ge s offset ';'
        have hbounds := pythonGet_ok_bounds hg
        have hoff : offset ≤ s.length + 1 := by
          rcases hbounds with ⟨h1, h2⟩ | ⟨h1, h2⟩ <;> omega
        exact ih (offset + 2) (by omega) (by omega) h
      · rw [if_neg hc] at h
        cases h

/-- `find_opt_end` never exhausts its fuel. -/
theorem find_opt_end_fuel (s : List Char) : find_opt_end s ≠ .error .fuelOut :=
  findOptEndAux_fuel s (s.length + 2) 0 (by omega) (by omega)

/-- `int()` only raises type or value errors. -/
theorem pyInt_ne_fuel (v : Option (List Char)) : pyInt v ≠ .error .fuelOut := by
  intro h
  unfold pyInt at h
  rcases v with _ | s
  · cases h
  · dsimp only at h
    split at h
    · cases h
    · cases h

/-- `applyOptStep` only raises genuine option errors, never the fuel
marker. -/
theorem applyOptStep_ne_fuel (r : Rule) (name : List Char) (val : Option (List Char)) :
    applyOptStep r name val ≠ .error .fuelOut := by
  intro h
  unfold applyOptStep at h
  repeat' split at h
  all_goals try cases h
  all_goals exact pyInt_ne_fuel _ (by assumption)

/-- `applyOpt` never raises the fuel marker. -/
theorem applyOpt_ne_fuel (r : Rule) (p : List Char × Option (List Char)) :
    applyOpt r p ≠ .error .fuelOut := by
  intro h
  unfold applyOpt at h
  rcases hs : applyOptStep r p.1 p.2 with e | r2 <;> rw [hs] at h
  · dsimp only at h
    injection h with h1
    exact applyOptStep_ne_fuel r p.1 p.2 (h1 ▸ hs)
  · dsimp only at h
    split at h
    · split at h
      all_goals try cases h
    · cases h

/-- `applyOpts` never raises the fuel marker. -/
theorem applyOpts_ne_fuel :
    ∀ (ps : List (List Char × Option (List Char))) (r : Rule),
      applyOpts r ps ≠ .error .fuelOut := by
  intro ps
  induction ps with
  | nil =>
    intro r h
    cases h
  | cons p t ih =>
    intro r h
    unfold applyOpts at h
    rcases ha : applyOpt r p with e | r1 <;> rw [ha] at h
    · injection h with h1
      exact applyOpt_ne_fuel r p (h1 ▸ ha)
    · exact ih r1 h

/-- The option loop cannot exhaust a fuel of `length + 1`: each iteration
consumes at least the option terminator. -/
theorem optionsLoopAux_fuel :
    ∀ (fuel : Nat) (opts : List Char), opts.length + 1 ≤ fuel →
      optionsLoopAux fuel opts ≠ .error .fuelOut := by
  intro fuel
  induction fuel with
  | zero =>
    intro opts hb h
    omega
  | succ n ih =>
    intro opts hb h
    simp only [optionsLoopAux] at h
    by_cases hemp : opts.isEmpty
    · rw [if_pos hemp] at h
      cases h
    · rw [if_neg hemp] at h
      rcases hfe : find_opt_end opts with e | idx <;> rw [hfe] at h
      · injection h with h1
        exact find_opt_end_fuel opts (h1 ▸ hfe)
      · dsimp only at h
        by_cases hneg : idx < 0
        · rw [if_pos hneg] at h
          cases h
        · rw [if_neg hneg] at h
          have hlen : opts.length ≠ 0 := by
            intro hc
            rcases opts with _ | _
            · cases hemp rfl
            · cases hc
          have hrest : (pyStrip (opts.drop (idx.toNat + 1))).length + 1 ≤ n := by
            have h1 := pyStrip_length_le (opts.drop (idx.toNat + 1))
            have h2 : (opts.drop (idx.toNat + 1)).length = opts.length - (idx.toNat + 1) := by
              simp [List.length_drop]
            omega
          rcases hrec : optionsLoopAux n (pyStrip (opts.drop (idx.toNat + 1))) with e | pairs <;>
            rw [hrec] at h
          · injection h with h1
            exact ih _ hrest (h1 ▸ hrec)
          · cases h

/-- `optionsLoop` never exhausts its fuel. -/
theorem optionsLoop_fuel (opts : List Char) : optionsLoop opts ≠ .error .fuelOut :=
  optionsLoopAux_fuel (opts.length + 1) opts (by omega)

/-- `parseStage` never raises the fuel marker. -/
theorem parseStage_ne_fuel (buf : List Char) (g : PyVal) :
    parseStage buf g ≠ .error .fuelOut := by
  intro h
  simp only [parseStage] at h
  rcases hm : rulePatternMatch (pyStrip buf) with _ | pm <;> rw [hm] at h <;> dsimp only at h
  · cases h
  · rcases hh : parseHeaderPhase pm g with _ | r2 <;> rw [hh] at h <;> dsimp only at h
    · cases h
    · rcases ho : optionsLoop pm.options with e | pairs <;> rw [ho] at h <;> dsimp only at h
      · injection h with h1
        exact optionsLoop_fuel pm.options (h1 ▸ ho)
      · rcases ha : applyOpts r2 pairs with e | r3 <;> rw [ha] at h <;> dsimp only at h
        · injection h with h1
          exact applyOpts_ne_fuel pairs r2 (h1 ▸ ha)
        · cases h

/-- `parse` never raises the fuel marker: the fuel bounds chosen for its
loops always suffice. -/
theorem parse_ne_fuel (buf : List Char) (g : PyVal) : parse buf g ≠ .error .fuelOut := by
  intro h
  unfold parse at h
  rcases hs : parseStage buf g with e | o <;> rw [hs] at h
  · injection h with h1
    exact parseStage_ne_fuel buf g (h1 ▸ hs)
  · rcases o with _ | ⟨r0, rawG⟩
    · cases h
    · dsimp only at h
      split at h
      · cases h
      · cases h

/-- `parse_flowbit` only raises genuine errors. -/
theorem parse_flowbit_ne_fuel (fb : Option (List Char)) :
    parse_flowbit fb ≠ .error .fuelOut := by
  intro h
  unfold parse_flowbit at h
  rcases fb with _ | s
  · cases h
  · dsimp only at h
    rcases hsp : pySplitFirst ',' s with _ | ⟨a, t⟩
    · rw [hsp] at h
      cases h
    · rcases t with _ | ⟨b, t2⟩
      · rw [hsp] at h
        cases h
      · rcases t2 with _ | ⟨c2, t3⟩
        · rw [hsp] at h
          cases h
        · rw [hsp] at h
          cases h

/-- Mapping `parse_flowbit` over a flowbits list only raises its genuine
errors. -/
theorem mapM_parse_flowbit_ne_fuel :
    ∀ l : List (Option (List Char)), l.mapM parse_flowbit ≠ .error .fuelOut := by
  intro l
  induction l with
  | nil =>
    intro h
    cases h
  | cons a t ih =>
    intro h
    rw [List.mapM_cons] at h
    rcases hpa : parse_flowbit a with e | v
    · rw [hpa] at h
      injection h with h1
      exact parse_flowbit_ne_fuel a (h1 ▸ hpa)
    · rw [hpa] at h
      rcases hrec : t.mapM parse_flowbit with e | vs <;> rw [hrec] at h
      · injection h with h1
        exact ih (h1 ▸ hrec)
      · cases h

/-- Iterating a flowbits value only raises a genuine type error. -/
theorem pyIterOS_ne_fuel (v : PyVal) : pyIterOS v ≠ .error .fuelOut := by
  intro h
  rcases v with _ | b | n | s | l <;> cases h

/-- `get_required_flowbits` never raises the fuel marker. -/
theorem getRequiredFlowbits_ne_fuel :
    ∀ rules : List Rule, getRequiredFlowbits rules ≠ .error .fuelOut := by
  intro rules
  induction rules with
  | nil =>
    intro h
    cases h
  | cons r rest ih =>
    intro h
    unfold getRequiredFlowbits at h
    by_cases he : pyTruthy r.enabled
    · rw [if_pos he] at h
      rcases hit : pyIterOS r.flowbits with e | fbs <;> rw [hit] at h
      · injection h with h1
        exact pyIterOS_ne_fuel r.flowbits (h1 ▸ hit)
      · dsimp only at h
        rcases hmp : fbs.mapM parse_flowbit with e | pairs <;> rw [hmp] at h
        · injection h with h1
          exact mapM_parse_flowbit_ne_fuel fbs (h1 ▸ hmp)
        · dsimp only at h
          rcases hrec : getRequiredFlowbits rest with e | req <;> rw [hrec] at h
          · injection h with h1
            exact ih (h1 ▸ hrec)
          · cases h
    · rw [if_neg he] at h
      exact ih h

/-- `set_required_flowbits` never raises the fuel marker. -/
theorem setRequiredFlowbits_ne_fuel :
    ∀ (rules : List Rule) (req : List (Option (List Char))),
      setRequiredFlowbits rules req ≠ .error .fuelOut := by
  intro rules
  induction rules with
  | nil =>
    intro req h
    cases h
  | cons r rest ih =>
    intro req h
    simp only [setRequiredFlowbits] at h
    by_cases he : pyTruthy r.enabled
    · rw [if_pos he] at h
      rcases hrec : setRequiredFlowbits rest req with e | p <;> rw [hrec] at h
      · injection h with h1
        exact ih req (h1 ▸ hrec)
      · rcases p with ⟨a, b⟩
        cases h
    · rw [if_neg he] at h
      rcases hit : pyIterOS r.flowbits with e | fbs <;> rw [hit] at h
      · injection h with h1
        exact pyIterOS_ne_fuel r.flowbits (h1 ▸ hit)
      · dsimp only at h
        rcases hmp : fbs.mapM parse_flowbit with e | pairs <;> rw [hmp] at h
        · injection h with h1
          exact mapM_parse_flowbit_ne_fuel fbs (h1 ▸ hmp)
        · dsimp only at h
          rcases hrec : setRequiredFlowbits rest req with e | p <;> rw [hrec] at h
          · injection h with h1
            exact ih req (h1 ▸ hrec)
          · rcases p with ⟨a, b⟩
            cases h

/-- The resolver recursion cannot exhaust a fuel of `disabledCount + 1`:
each recursive pass strictly shrinks the disabled count. -/
theorem resolveAux_fuel :
    ∀ (fuel : Nat) (rules acc : List Rule), disabledCount rules + 1 ≤ fuel →
      resolveAux fuel rules acc ≠ .error .fuelOut := by
  intro fuel
  induction fuel with
  | zero =>
    intro rules acc hb h
    omega
  | succ n ih =>
    intro rules acc hb h
    simp only [resolveAux] at h
    rcases hreq : getRequiredFlowbits rules with e | required <;> rw [hreq] at h
    · injection h with h1
      exact getRequiredFlowbits_ne_fuel rules (h1 ▸ hreq)
    · dsimp only at h
      rcases hsrf : setRequiredFlowbits rules required with e | ⟨rules1, en1⟩ <;> rw [hsrf] at h
      · injection h with h1
        exact setRequiredFlowbits_ne_fuel rules required (h1 ▸ hsrf)
      · dsimp only at h
        by_cases hemp : en1.isEmpty
        · rw [if_pos hemp] at h
          cases h
        · rw [if_neg hemp] at h
          have hne : en1 ≠ [] := by
            intro hc
            rw [hc] at hemp
            exact hemp rfl
          have hlt := srf_disabledCount_lt rules required rules1 en1 hsrf hne
          exact ih rules1 (acc ++ en1) (by omega) h

/-- `FlowbitResolver.resolve` never raises the fuel marker: its fuel bound
always suffices, so the model errors exactly where the source raises. -/
theorem resolve_ne_fuel (rules : List Rule) :
    FlowbitResolver.resolve rules ≠ .error .fuelOut :=
  resolveAux_fuel (disabledCount rules + 1) rules [] (by omega)
